import Mathlib

/-!
Verification of the parallel dual module of the fusion-blossom MWPM decoder.

The Rust sources embedded here are src/src/dual_module_parallel.rs and
src/src/mwpm_solver.rs.  Helper types that live outside those files
(the vertex-range utilities, the complete-graph adjacency structure and the
group-max-update-length aggregate) are modelled from the specification, as
noted on each definition.
-/

deriving instance DecidableEq for Except

namespace FusionBlossom

/-- Modelled from the spec: `VertexRange` (util.rs, not in src/): a contiguous
vertex range `[lo, hi)`. -/
structure VertexRange where
  lo : ℕ
  hi : ℕ
deriving DecidableEq

/-- Membership in a vertex range, `lo ≤ v < hi`. -/
def VertexRange.contains (r : VertexRange) (v : ℕ) : Prop := r.lo ≤ v ∧ v < r.hi

instance (r : VertexRange) (v : ℕ) : Decidable (r.contains v) :=
  inferInstanceAs (Decidable (_ ∧ _))

/-- The list of vertices of a range, in increasing order (the range iterator). -/
def VertexRange.toList (r : VertexRange) : List ℕ := List.range' r.lo (r.hi - r.lo)

/-- Two ranges are disjoint when no vertex lies in both. -/
def VertexRange.DisjointR (a b : VertexRange) : Prop := ∀ v, ¬ (a.contains v ∧ b.contains v)

/-- `SolverInitializer`: the global decoding graph description
(vertex count, weighted edges, virtual boundary vertices). -/
structure SolverInitializer where
  vertex_num : ℕ
  weighted_edges : List (ℕ × ℕ × ℕ)
  virtual_vertices : List ℕ
deriving DecidableEq

/-- `DualModuleParallelConfig` (dual_module_parallel.rs): the partition /
fusion plan.  The thread-pool size never influences results and is omitted. -/
structure DualModuleParallelConfig where
  partitions : List VertexRange
  fusions : List (ℕ × ℕ)
  edges_in_fusion_unit : Bool
deriving DecidableEq

/-- `PartitionUnitInfo` (dual_module_parallel.rs). -/
structure PartitionUnitInfo where
  whole_range : VertexRange
  owning_range : VertexRange
  children : Option (ℕ × ℕ)
  parent : Option ℕ
  leaves : List ℕ
  descendants : Finset ℕ
deriving DecidableEq

/-- A placeholder unit used as the default for out-of-bounds list reads
(the Rust code would panic there; validated runs never read out of bounds). -/
def defaultUnitInfo : PartitionUnitInfo :=
  { whole_range := ⟨0, 0⟩, owning_range := ⟨0, 0⟩, children := none
    parent := none, leaves := [], descendants := ∅ }

/-- `PartitionInfo` (dual_module_parallel.rs): all units plus the
vertex-to-owning-unit map (`usize::MAX` sentinel modelled as `none`). -/
structure PartitionInfo where
  units : List PartitionUnitInfo
  vertex_to_owning_unit : List (Option ℕ)
deriving DecidableEq

/-- The fusion loop of `PartitionInfo::new`: builds `whole_ranges`,
`owning_ranges` and `parents` one fusion at a time.  Each assert of the Rust
loop becomes an `Except.error`; the fused whole range is
`[left.lo, right.hi)` and the interface (owning) range `[left.hi, right.lo)`
with the bound checks of `VertexRange::fuse`, which is modelled from the
spec (util.rs is not in src/). -/
def fuseLoop : List (ℕ × ℕ) → List VertexRange → List VertexRange → List (Option ℕ) →
    Except String (List VertexRange × List VertexRange × List (Option ℕ))
  | [], whole, owning, parents => .ok (whole, owning, parents)
  | (l, r) :: rest, whole, owning, parents =>
    if whole.length ≤ l then .error "dependency wrong" else
    if whole.length ≤ r then .error "dependency wrong" else
    if (parents.getD l none).isSome then .error "cannot fuse twice" else
    if (parents.getD r none).isSome then .error "cannot fuse twice" else
    if (whole.getD l ⟨0, 0⟩).hi < (whole.getD l ⟨0, 0⟩).lo then .error "sanity check failed" else
    if (whole.getD r ⟨0, 0⟩).hi < (whole.getD r ⟨0, 0⟩).lo then .error "sanity check failed" else
    if (whole.getD r ⟨0, 0⟩).lo < (whole.getD l ⟨0, 0⟩).hi then
      .error "only lower range can fuse higher range" else
    fuseLoop rest (whole ++ [⟨(whole.getD l ⟨0, 0⟩).lo, (whole.getD r ⟨0, 0⟩).hi⟩])
      (owning ++ [⟨(whole.getD l ⟨0, 0⟩).hi, (whole.getD r ⟨0, 0⟩).lo⟩])
      ((parents.set l (some whole.length)).set r (some whole.length))

/-- The leaves / descendants accumulation loop of `PartitionInfo::new`:
a fusion unit collects the leaves of both children (left first) and its
descendants are the two children together with their descendants. -/
def leavesDescLoop : List (ℕ × ℕ) → List (List ℕ) → List (Finset ℕ) →
    (List (List ℕ) × List (Finset ℕ))
  | [], leaves, descs => (leaves, descs)
  | (l, r) :: rest, leaves, descs =>
    leavesDescLoop rest (leaves ++ [leaves.getD l [] ++ leaves.getD r []])
      (descs ++ [insert l (insert r ((descs.getD l ∅) ∪ (descs.getD r ∅)))])

/-- Writing one owning range into the vertex-to-owning-unit map. -/
def writeRange (u : ℕ) (rng : VertexRange) (m : List (Option ℕ)) : List (Option ℕ) :=
  rng.toList.foldl (fun m v => m.set v (some u)) m

/-- The vertex-to-owning-unit construction loop: every unit writes its
owning range into the map, in unit order. -/
def vertexMapLoop : ℕ → List VertexRange → List (Option ℕ) → List (Option ℕ)
  | _, [], m => m
  | u, rng :: rest, m => vertexMapLoop (u + 1) rest (writeRange u rng m)

/-- `PartitionInfo::new` (dual_module_parallel.rs): validates the
configuration and produces the partition tree.  Every Rust assert is an
`Except.error` here. -/
def PartitionInfo.new (config : DualModuleParallelConfig) (initializer : SolverInitializer) :
    Except String PartitionInfo :=
  if config.partitions.isEmpty then .error "at least one partition must exist" else
  if ¬ (config.partitions.all fun p => decide (p.lo ≤ p.hi) && decide (p.hi ≤ initializer.vertex_num)) then
    .error "invalid vertex index in partitions"
  else
    match fuseLoop config.fusions config.partitions config.partitions
        (List.replicate (config.partitions.length + config.fusions.length) none) with
    | .error e => .error e
    | .ok (whole, owning, parents) =>
      if ¬ ((List.range (config.partitions.length + config.fusions.length - 1)).all fun i =>
          (parents.getD i none).isSome) then
        .error "found unit without being fused"
      else
      if (whole.getD (config.partitions.length + config.fusions.length - 1) ⟨0, 0⟩).lo ≠ 0 then
        .error "final range not covering all vertices"
      else
      if (whole.getD (config.partitions.length + config.fusions.length - 1) ⟨0, 0⟩).hi ≠
          initializer.vertex_num then
        .error "final range not covering all vertices"
      else
        .ok
          { units := (List.range (config.partitions.length + config.fusions.length)).map fun i =>
              { whole_range := whole.getD i ⟨0, 0⟩
                owning_range := owning.getD i ⟨0, 0⟩
                children := if i < config.partitions.length then none
                  else some (config.fusions.getD (i - config.partitions.length) (0, 0))
                parent := parents.getD i none
                leaves := (leavesDescLoop config.fusions
                  ((List.range config.partitions.length).map fun i => [i])
                  (List.replicate config.partitions.length ∅)).1.getD i []
                descendants := (leavesDescLoop config.fusions
                  ((List.range config.partitions.length).map fun i => [i])
                  (List.replicate config.partitions.length ∅)).2.getD i ∅ }
            vertex_to_owning_unit :=
              vertexMapLoop 0 owning (List.replicate initializer.vertex_num none) }

/-- Modelled from the spec: the adjacency query of `CompleteGraph`
(complete_graph.rs, not in src/): the neighbours of a vertex are the peer
endpoints of the weighted edges incident to it. -/
def neighbors (edges : List (ℕ × ℕ × ℕ)) (v : ℕ) : List ℕ :=
  edges.foldr (fun e acc =>
    if e.1 = v then e.2.1 :: acc else if e.2.1 = v then e.1 :: acc else acc) []

/-- `PartitionedSolverInitializer`: the per-unit initializer produced by
`DualModuleParallel::new_config`. -/
structure PartitionedSolverInitializer where
  vertex_num : ℕ
  owning_range : VertexRange
  weighted_edges : List (ℕ × ℕ × ℕ)
  interfaces : List (ℕ × List (ℕ × Bool))
  virtual_vertices : List ℕ
deriving DecidableEq

/-- The vertices of ancestor `p` owning range that are incident to the
walking unit's owning range `own` (the mirror candidates of the
`edges_in_fusion_unit = true` branch), in owning-range order. -/
def mirrorVertices (units : List PartitionUnitInfo) (nbrs : ℕ → List ℕ)
    (own : VertexRange) (p : ℕ) : List ℕ :=
  (units.getD p defaultUnitInfo).owning_range.toList.filter fun v =>
    (nbrs v).any fun q => decide (own.contains q)

/-- The mirror-vertex list a unit with owning range `own` records for the
ancestor `p` in `edges_in_fusion_unit = true` mode: each incident vertex
paired with its global virtual flag. -/
def mirrorsOf (units : List PartitionUnitInfo) (nbrs : ℕ → List ℕ) (isVirt : ℕ → Bool)
    (own : VertexRange) (p : ℕ) : List (ℕ × Bool) :=
  (mirrorVertices units nbrs own p).map fun v => (v, isVirt v)

/-- The ancestor walk of `new_config` that discovers interface (mirror)
vertices for one unit.  `own` stays fixed at the walking unit's owning
range; `contained` accumulates the vertices maintained by the unit.  In
`edges_in_fusion_unit = true` mode a parent vertex is mirrored iff it has an
edge to a vertex of `own`; in the hardware-faithful mode the whole parent
owning range is mirrored iff any of its vertices has an edge into the
accumulated `contained` set.  `fuel` bounds the walk (parent indices
strictly increase in validated partition trees, so a fuel of the unit count
is never exhausted there). -/
def interfaceLoop (eifu : Bool) (units : List PartitionUnitInfo) (nbrs : ℕ → List ℕ)
    (isVirt : ℕ → Bool) (own : VertexRange) :
    ℕ → ℕ → Finset ℕ → (List (ℕ × List (ℕ × Bool)) × Finset ℕ)
  | 0, _, contained => ([], contained)
  | fuel + 1, cur, contained =>
    match (units.getD cur defaultUnitInfo).parent with
    | none => ([], contained)
    | some p =>
      if eifu then
        (if (mirrorsOf units nbrs isVirt own p).isEmpty then
          (interfaceLoop eifu units nbrs isVirt own fuel p
            (contained ∪ (mirrorVertices units nbrs own p).toFinset)).1
        else (p, mirrorsOf units nbrs isVirt own p) ::
          (interfaceLoop eifu units nbrs isVirt own fuel p
            (contained ∪ (mirrorVertices units nbrs own p).toFinset)).1,
        (interfaceLoop eifu units nbrs isVirt own fuel p
          (contained ∪ (mirrorVertices units nbrs own p).toFinset)).2)
      else
        if (units.getD p defaultUnitInfo).owning_range.toList.any
            (fun v => (nbrs v).any fun q => decide (q ∈ contained)) then
          (if ((units.getD p defaultUnitInfo).owning_range.toList.map
              fun v => (v, isVirt v)).isEmpty then
            (interfaceLoop eifu units nbrs isVirt own fuel p
              (contained ∪ (units.getD p defaultUnitInfo).owning_range.toList.toFinset)).1
          else (p, (units.getD p defaultUnitInfo).owning_range.toList.map
              fun v => (v, isVirt v)) ::
            (interfaceLoop eifu units nbrs isVirt own fuel p
              (contained ∪ (units.getD p defaultUnitInfo).owning_range.toList.toFinset)).1,
          (interfaceLoop eifu units nbrs isVirt own fuel p
            (contained ∪ (units.getD p defaultUnitInfo).owning_range.toList.toFinset)).2)
        else
          interfaceLoop eifu units nbrs isVirt own fuel p contained

/-- Whether a vertex is in the global virtual-vertex set
(the `is_vertex_virtual` table of `new_config`). -/
def isVertexVirtual (initializer : SolverInitializer) (v : ℕ) : Bool :=
  initializer.virtual_vertices.contains v

/-- The per-unit initializer (without edges, which are assigned later) plus
the accumulated contained-vertex set, as built by the big map of
`new_config` for one unit index. -/
def buildUnitInitializer (config : DualModuleParallelConfig)
    (initializer : SolverInitializer) (info : PartitionInfo) (unitIndex : ℕ) :
    PartitionedSolverInitializer × Finset ℕ :=
  let own := (info.units.getD unitIndex defaultUnitInfo).owning_range
  let walk := interfaceLoop config.edges_in_fusion_unit info.units
    (neighbors initializer.weighted_edges) (isVertexVirtual initializer) own
    info.units.length unitIndex own.toList.toFinset
  ({ vertex_num := initializer.vertex_num
     owning_range := own
     weighted_edges := []
     interfaces := walk.1
     virtual_vertices := own.toList.filter (isVertexVirtual initializer) }, walk.2)

/-- The contained-vertex sets of all units (`contained_vertices_vec`). -/
def containedVerticesVec (config : DualModuleParallelConfig)
    (initializer : SolverInitializer) (info : PartitionInfo) : List (Finset ℕ) :=
  (List.range info.units.length).map fun u => (buildUnitInitializer config initializer info u).2

/-- The ancestor / descendant pair of an edge as computed in `new_config`:
the unit owning `i` is the ancestor iff the unit owning `j` is among its
descendants; otherwise the unit owning `j` is taken as the ancestor (which
also covers the case of both endpoints owned by the same unit). -/
def ancestorDescendantOf (info : PartitionInfo) (iu ju : ℕ) : ℕ × ℕ :=
  if ju ∈ (info.units.getD iu defaultUnitInfo).descendants then (iu, ju) else (ju, iu)

/-- The recursive descent `dfs_add` of `new_config` (hardware-faithful edge
placement): walk down to the leaves of a fusion unit; a leaf receives the
edge iff it contains both endpoints, and it is an assertion failure
(an error here) when it contains exactly one.  `fuel` bounds the recursion
depth (children indices strictly decrease in validated partition trees). -/
def dfsAdd (numPartitions : ℕ) (units : List PartitionUnitInfo)
    (containedVec : List (Finset ℕ)) (i j w : ℕ) :
    ℕ → ℕ → List (List (ℕ × ℕ × ℕ)) → Except String (List (List (ℕ × ℕ × ℕ)))
  | 0, _, _ => .error "recursion fuel exhausted"
  | fuel + 1, unitIndex, acc =>
    if unitIndex ≥ numPartitions then
      match (units.getD unitIndex defaultUnitInfo).children with
      | none => .error "fusion unit must have children"
      | some lr =>
        match dfsAdd numPartitions units containedVec i j w fuel lr.1 acc with
        | .error e => .error e
        | .ok acc1 => dfsAdd numPartitions units containedVec i j w fuel lr.2 acc1
    else
      if decide (i ∈ containedVec.getD unitIndex ∅) ≠
          decide (j ∈ containedVec.getD unitIndex ∅) then
        .error "must either be both contained or not contained"
      else if i ∈ containedVec.getD unitIndex ∅ then
        .ok (acc.set unitIndex (acc.getD unitIndex [] ++ [(i, j, w)]))
      else .ok acc

/-- The leaves visited by the recursion of `dfs_add`, in visiting order,
following exactly the recursion skeleton of `dfsAdd` (same fuel discipline
and branch conditions); `none` when `dfsAdd` would fail before reaching a
leaf check (fuel exhausted or a fusion unit without children). -/
def descentLeaves (numPartitions : ℕ) (units : List PartitionUnitInfo) :
    ℕ → ℕ → Option (List ℕ)
  | 0, _ => none
  | fuel + 1, unitIndex =>
    if unitIndex ≥ numPartitions then
      match (units.getD unitIndex defaultUnitInfo).children with
      | none => none
      | some lr =>
        match descentLeaves numPartitions units fuel lr.1,
            descentLeaves numPartitions units fuel lr.2 with
        | some l1, some l2 => some (l1 ++ l2)
        | _, _ => none
    else some [unitIndex]

/-- The edge-assignment loop of `new_config`: validates every edge
(no self loops, endpoints in range, no crossing of independent partitions)
and appends it to the per-unit edge lists according to the placement
policy.  Every Rust assert (and index panic) is an `Except.error`. -/
def assignEdgesLoop (config : DualModuleParallelConfig)
    (initializer : SolverInitializer) (info : PartitionInfo)
    (containedVec : List (Finset ℕ)) :
    List (ℕ × ℕ × ℕ) → List (List (ℕ × ℕ × ℕ)) → Except String (List (List (ℕ × ℕ × ℕ)))
  | [], acc => .ok acc
  | (i, j, w) :: rest, acc =>
    if i = j then .error "invalid edge from and to the same vertex" else
    if i ≥ initializer.vertex_num then .error "edge connected to an invalid vertex" else
    if j ≥ initializer.vertex_num then .error "edge connected to an invalid vertex" else
    match info.vertex_to_owning_unit.getD i none, info.vertex_to_owning_unit.getD j none with
    | some iu, some ju =>
      if ¬ (ju ∈ (info.units.getD iu defaultUnitInfo).descendants ∨
          iu ∈ (info.units.getD ju defaultUnitInfo).descendants ∨ iu = ju) then
        .error "violating edge crossing two independent partitions"
      else
        if config.edges_in_fusion_unit then
          assignEdgesLoop config initializer info containedVec rest
            (acc.set (ancestorDescendantOf info iu ju).2
              (acc.getD (ancestorDescendantOf info iu ju).2 [] ++ [(i, j, w)]))
        else
          if (ancestorDescendantOf info iu ju).1 < config.partitions.length then
            assignEdgesLoop config initializer info containedVec rest
              (acc.set (ancestorDescendantOf info iu ju).2
                (acc.getD (ancestorDescendantOf info iu ju).2 [] ++ [(i, j, w)]))
          else
            match dfsAdd config.partitions.length info.units containedVec i j w
                info.units.length (ancestorDescendantOf info iu ju).2 acc with
            | .error e => .error e
            | .ok acc1 => assignEdgesLoop config initializer info containedVec rest acc1
    | _, _ => .error "vertex not owned by any unit"

/-- All per-unit edge lists, starting from empty lists. -/
def assignEdges (config : DualModuleParallelConfig) (initializer : SolverInitializer)
    (info : PartitionInfo) (containedVec : List (Finset ℕ)) :
    Except String (List (List (ℕ × ℕ × ℕ))) :=
  assignEdgesLoop config initializer info containedVec initializer.weighted_edges
    (List.replicate info.units.length [])

/-- The source the serial dual module of a unit was built from: the whole
global initializer (single-partition branch, `DualModuleSerial::new`) or a
partitioned initializer (`DualModuleSerial::new_partitioned`). -/
inductive SerialSource where
  | global (initializer : SolverInitializer)
  | partitioned (pinit : PartitionedSolverInitializer)
deriving DecidableEq

/-- `DualModuleParallelUnit` runtime state: the tree / activity bookkeeping
around one serial dual module.  The serial module's own mutable dual-node
state lives outside src/ and is kept opaque; only its construction source
is recorded. -/
structure DualModuleParallelUnit where
  is_fused : Bool
  is_active : Bool
  whole_range : VertexRange
  owning_range : VertexRange
  serial_module : SerialSource
  parent : Option ℕ
deriving DecidableEq

/-- `DualModuleParallelUnitPtr::new_wrapper`: every freshly built unit is
active, unfused, and has no parent pointer. -/
def newWrapper (src : SerialSource) (pu : PartitionUnitInfo) : DualModuleParallelUnit :=
  { is_fused := false, is_active := true, whole_range := pu.whole_range
    owning_range := pu.owning_range, serial_module := src, parent := none }

/-- `DualModuleParallel` runtime state. -/
structure DualModuleParallelState where
  initializer : SolverInitializer
  units : List DualModuleParallelUnit
  config : DualModuleParallelConfig
  partition_info : PartitionInfo
deriving DecidableEq

/-- The default-partition substitution at the top of
`DualModuleParallel::new_config`: an empty partition list becomes the
single partition covering all vertices. -/
def defaultedConfig (initializer : SolverInitializer) (config0 : DualModuleParallelConfig) :
    DualModuleParallelConfig :=
  if config0.partitions.isEmpty then
    { config0 with partitions := [⟨0, initializer.vertex_num⟩] } else config0

/-- The body of `DualModuleParallel::new_config` after the default
substitution: build the partition info, then either wrap the global graph
in one unit (single-partition branch, which performs no edge validation)
or build the partitioned initializers, assign the edges (with validation)
and build all units. -/
def newConfigMain (initializer : SolverInitializer) (config : DualModuleParallelConfig) :
    Except String DualModuleParallelState :=
  match PartitionInfo.new config initializer with
  | .error e => .error e
  | .ok info =>
    if config.partitions.length = 1 then
      if ¬ config.fusions.isEmpty then .error "should be no fusions with only 1 partition"
      else .ok
        { initializer := initializer
          units := [newWrapper (.global initializer) (info.units.getD 0 defaultUnitInfo)]
          config := config, partition_info := info }
    else
      match assignEdges config initializer info (containedVerticesVec config initializer info) with
      | .error e => .error e
      | .ok edgeLists =>
        .ok
          { initializer := initializer
            units := (List.range info.units.length).map fun u =>
              newWrapper (.partitioned
                { (buildUnitInitializer config initializer info u).1 with
                    weighted_edges := edgeLists.getD u [] })
                (info.units.getD u defaultUnitInfo)
            config := config, partition_info := info }

/-- `DualModuleParallel::new_config`. -/
def newConfig (initializer : SolverInitializer) (config0 : DualModuleParallelConfig) :
    Except String DualModuleParallelState :=
  newConfigMain initializer (defaultedConfig initializer config0)

/-- The flag part of `DualModuleParallel::clear`: every unit resets its
serial module (opaque here), becomes unfused, and is active exactly when its
index is below the partition count (leaf units). -/
def clearUnitsFrom (numPartitions : ℕ) : ℕ → List DualModuleParallelUnit →
    List DualModuleParallelUnit
  | _, [] => []
  | idx, u :: rest =>
    { u with is_fused := false, is_active := decide (idx < numPartitions) } ::
      clearUnitsFrom numPartitions (idx + 1) rest

/-- `DualModuleParallel::clear` on the module state. -/
def moduleClear (st : DualModuleParallelState) : DualModuleParallelState :=
  { st with units := clearUnitsFrom st.config.partitions.length 0 st.units }

/-- The loop of `DualModuleParallel::find_active_ancestor`, with explicit
fuel: `none` means the fuel ran out while the loop was still running (the
reachable states never hit this), `some none` models the panic on a missing
parent pointer or an out-of-bounds unit index, and `some (some u)` is a
normal return of unit `u`. -/
def findActiveAncestorAux (units : List DualModuleParallelUnit) :
    ℕ → ℕ → Option (Option ℕ)
  | 0, _ => none
  | fuel + 1, cur =>
    match units.get? cur with
    | none => some none
    | some u =>
      if u.is_active then some (some cur)
      else
        match u.parent with
        | none => some none
        | some p => findActiveAncestorAux units fuel p

/-- `DualModuleParallel::find_active_ancestor`: start at the unit owning the
representative vertex of the dual node and walk parent pointers until an
active unit is found. -/
def findActiveAncestor (st : DualModuleParallelState) (representativeVertex : ℕ) :
    Option (Option ℕ) :=
  match st.partition_info.vertex_to_owning_unit.getD representativeVertex none with
  | none => some none
  | some owningUnit => findActiveAncestorAux st.units (st.units.length + 1) owningUnit

/-- The unit to which `add_dual_node` delegates: the active ancestor of the
dual node's representative vertex. -/
def addDualNodeUnit (st : DualModuleParallelState) (representativeVertex : ℕ) :
    Option (Option ℕ) := findActiveAncestor st representativeVertex

/-- The unit to which `remove_blossom` delegates. -/
def removeBlossomUnit (st : DualModuleParallelState) (representativeVertex : ℕ) :
    Option (Option ℕ) := findActiveAncestor st representativeVertex

/-- The unit to which `set_grow_state` delegates. -/
def setGrowStateUnit (st : DualModuleParallelState) (representativeVertex : ℕ) :
    Option (Option ℕ) := findActiveAncestor st representativeVertex

/-- The unit to which `compute_maximum_update_length_dual_node` delegates. -/
def computeMaximumUpdateLengthDualNodeUnit (st : DualModuleParallelState)
    (representativeVertex : ℕ) : Option (Option ℕ) := findActiveAncestor st representativeVertex

/-- The unit to which `grow_dual_node` delegates. -/
def growDualNodeUnit (st : DualModuleParallelState) (representativeVertex : ℕ) :
    Option (Option ℕ) := findActiveAncestor st representativeVertex

/-- Modelled from the spec: the conflict variants of `MaxUpdateLength`
(dual_module.rs, not in src/): touching a virtual vertex, two touching
nodes (same or different), or a blossom that needs expansion. -/
inductive DualConflict where
  | touchingVirtual (node vertex : ℕ)
  | touchingSameNode (a b : ℕ)
  | touchingDifferentNode (a b : ℕ)
  | blossomNeedExpand (blossom : ℕ)
deriving DecidableEq

/-- Modelled from the spec: `GroupMaxUpdateLength` (dual_module.rs, not in
src/) aggregates a set of conflicts, or the minimum growth bound when no
conflicts exist; `⊤` is the unbounded growth bound. -/
structure GroupMaxUpdateLength where
  conflicts : Finset DualConflict
  bound : WithTop ℕ
deriving DecidableEq

/-- Modelled from the spec: `GroupMaxUpdateLength::new`, the neutral
aggregate (no conflicts, unbounded). -/
def GroupMaxUpdateLength.new : GroupMaxUpdateLength := ⟨∅, ⊤⟩

/-- Modelled from the spec: `GroupMaxUpdateLength::extend` takes the union
of the conflict sets and the minimum of the growth bounds. -/
def GroupMaxUpdateLength.extend (a b : GroupMaxUpdateLength) : GroupMaxUpdateLength :=
  ⟨a.conflicts ∪ b.conflicts, min a.bound b.bound⟩

/-- Modelled from the spec: `GroupMaxUpdateLength::is_empty`. -/
def GroupMaxUpdateLength.isEmptyG (a : GroupMaxUpdateLength) : Prop :=
  a.conflicts = ∅ ∧ a.bound = ⊤

/-- The per-unit inputs of the global `compute_maximum_update_length`:
each unit's activity flag together with the local aggregate its serial
module would report. -/
structure UnitComputeState where
  is_active : Bool
  localResult : GroupMaxUpdateLength
deriving DecidableEq

/-- `DualModuleParallel::compute_maximum_update_length`: skip inactive
units, collect the local aggregates of the active ones, and fold them
together with `extend` starting from the neutral aggregate. -/
def computeMaximumUpdateLength (units : List UnitComputeState) : GroupMaxUpdateLength :=
  ((units.filter fun u => u.is_active).map fun u => u.localResult).foldl
    GroupMaxUpdateLength.extend GroupMaxUpdateLength.new

/-- Strictly increasing parent pointers: every parent index exceeds its
child index (true of every validated partition tree). -/
def IncreasingParents (P : List (Option ℕ)) : Prop :=
  ∀ i p, P.getD i none = some p → i < p

/-- Reachability along parent pointers in the partition tree:
`Reaches P u m` holds when repeatedly following parent pointers from `u`
arrives at `m` (so `m` is `u` itself or an ancestor of `u`). -/
inductive Reaches (P : List (Option ℕ)) : ℕ → ℕ → Prop
  | refl (i : ℕ) : Reaches P i i
  | step {i p k : ℕ} : P.getD i none = some p → Reaches P p k → Reaches P i k

/-- The parent pointers of the units of a partition info. -/
def parentsOf (info : PartitionInfo) : List (Option ℕ) := info.units.map fun u => u.parent

/-- The chain of proper ancestors of a unit, nearest first, cut off by
`fuel` (a fuel of the unit count suffices for validated trees). -/
def parentChain (P : List (Option ℕ)) : ℕ → ℕ → List ℕ
  | 0, _ => []
  | fuel + 1, cur =>
    match P.getD cur none with
    | none => []
    | some p => p :: parentChain P fuel p

/-- Executable reachability along parent pointers. -/
def reachesB (P : List (Option ℕ)) (fuel u m : ℕ) : Bool :=
  decide (u = m) || (parentChain P fuel u).contains m

/-- The descendant unit to which the edge-assignment loop routes an edge
(the owning unit of the endpoint that is not on the ancestor side), or
`none` when an endpoint is owned by no unit. -/
def edgeDescUnit (info : PartitionInfo) (e : ℕ × ℕ × ℕ) : Option ℕ :=
  match info.vertex_to_owning_unit.getD e.1 none, info.vertex_to_owning_unit.getD e.2.1 none with
  | some iu, some ju => some (ancestorDescendantOf info iu ju).2
  | _, _ => none

/-- The hardware-faithful placement predicate: with
`edges_in_fusion_unit = false`, an edge lands in unit `u` iff either its
ancestor unit is a leaf and `u` is its descendant unit, or `u` is a leaf of
the descendant unit's subtree whose contained-vertex set holds both
endpoints. -/
def hwPlaced (numPartitions : ℕ) (info : PartitionInfo) (containedVec : List (Finset ℕ))
    (e : ℕ × ℕ × ℕ) (u : ℕ) : Bool :=
  match info.vertex_to_owning_unit.getD e.1 none, info.vertex_to_owning_unit.getD e.2.1 none with
  | some iu, some ju =>
    if (ancestorDescendantOf info iu ju).1 < numPartitions then
      decide (u = (ancestorDescendantOf info iu ju).2)
    else
      reachesB (parentsOf info) info.units.length u (ancestorDescendantOf info iu ju).2 &&
        decide (u < numPartitions) && decide (e.1 ∈ containedVec.getD u ∅) &&
        decide (e.2.1 ∈ containedVec.getD u ∅)
  | _, _ => false

/-- The facts extracted from a successfully validated fusion plan
(`n` partitions, fusion list `fs`, whole ranges `W`, owning ranges `O`,
parent pointers `P`) on which the partition-tree proofs rely. -/
structure FusePlanFacts (n : ℕ) (fs : List (ℕ × ℕ)) (W O : List VertexRange)
    (P : List (Option ℕ)) : Prop where
  wlen : W.length = n + fs.length
  olen : O.length = n + fs.length
  plen : P.length = n + fs.length
  leaf_eq : ∀ i, i < n → O.getD i ⟨0, 0⟩ = W.getD i ⟨0, 0⟩
  leaf_sane : ∀ i, i < n → (W.getD i ⟨0, 0⟩).lo ≤ (W.getD i ⟨0, 0⟩).hi
  step : ∀ k, ∀ hk : k < fs.length,
    (fs.get ⟨k, hk⟩).1 < n + k ∧ (fs.get ⟨k, hk⟩).2 < n + k ∧
    (W.getD (fs.get ⟨k, hk⟩).1 ⟨0, 0⟩).lo ≤ (W.getD (fs.get ⟨k, hk⟩).1 ⟨0, 0⟩).hi ∧
    (W.getD (fs.get ⟨k, hk⟩).2 ⟨0, 0⟩).lo ≤ (W.getD (fs.get ⟨k, hk⟩).2 ⟨0, 0⟩).hi ∧
    (W.getD (fs.get ⟨k, hk⟩).1 ⟨0, 0⟩).hi ≤ (W.getD (fs.get ⟨k, hk⟩).2 ⟨0, 0⟩).lo ∧
    W.getD (n + k) ⟨0, 0⟩ =
      ⟨(W.getD (fs.get ⟨k, hk⟩).1 ⟨0, 0⟩).lo, (W.getD (fs.get ⟨k, hk⟩).2 ⟨0, 0⟩).hi⟩ ∧
    O.getD (n + k) ⟨0, 0⟩ =
      ⟨(W.getD (fs.get ⟨k, hk⟩).1 ⟨0, 0⟩).hi, (W.getD (fs.get ⟨k, hk⟩).2 ⟨0, 0⟩).lo⟩ ∧
    P.getD (fs.get ⟨k, hk⟩).1 none = some (n + k) ∧
    P.getD (fs.get ⟨k, hk⟩).2 none = some (n + k)
  parent_inv : ∀ i m, P.getD i none = some m → ∃ k, ∃ hk : k < fs.length,
    m = n + k ∧ ((fs.get ⟨k, hk⟩).1 = i ∨ (fs.get ⟨k, hk⟩).2 = i)
  parent_all : ∀ i, i < n + fs.length - 1 → (P.getD i none).isSome = true

/-- An edge the edge-assignment loop rejects: a self loop, an endpoint at
or beyond the vertex count, or endpoints whose owning units are unrelated
in the partition tree (a cross-partition edge; endpoints owned by no unit
are also fatal). -/
def EdgeInvalid (initializer : SolverInitializer) (info : PartitionInfo)
    (e : ℕ × ℕ × ℕ) : Prop :=
  e.1 = e.2.1 ∨ initializer.vertex_num ≤ e.1 ∨ initializer.vertex_num ≤ e.2.1 ∨
  (∀ iu ju, info.vertex_to_owning_unit.getD e.1 none = some iu →
    info.vertex_to_owning_unit.getD e.2.1 none = some ju →
    ¬ (ju ∈ (info.units.getD iu defaultUnitInfo).descendants ∨
       iu ∈ (info.units.getD ju defaultUnitInfo).descendants ∨ iu = ju))

/-- A two-vertex global graph with no edges. -/
def exInitTwo : SolverInitializer :=
  { vertex_num := 2, weighted_edges := [], virtual_vertices := [] }

/-- A two-partition, one-fusion configuration over two vertices. -/
def exCfgTwo : DualModuleParallelConfig :=
  { partitions := [⟨0, 1⟩, ⟨1, 2⟩], fusions := [(0, 1)], edges_in_fusion_unit := true }

/-- The partition info the planner produces for `exCfgTwo` over
`exInitTwo`. -/
def exInfoTwo : PartitionInfo :=
  { units :=
      [ { whole_range := ⟨0, 1⟩, owning_range := ⟨0, 1⟩, children := none, parent := some 2
          leaves := [0], descendants := ∅ }
      , { whole_range := ⟨1, 2⟩, owning_range := ⟨1, 2⟩, children := none, parent := some 2
          leaves := [1], descendants := ∅ }
      , { whole_range := ⟨0, 2⟩, owning_range := ⟨1, 1⟩, children := some (0, 1), parent := none
          leaves := [0, 1], descendants := {0, 1} } ]
    vertex_to_owning_unit := [some 0, some 1] }

/-- A two-vertex global graph with a single self-loop edge. -/
def exInitSelfLoop : SolverInitializer :=
  { vertex_num := 2, weighted_edges := [(0, 0, 1)], virtual_vertices := [] }

/-- The module state `new_config` produces for `exCfgTwo` over
`exInitTwo`. -/
def exStateTwo : DualModuleParallelState :=
  { initializer := exInitTwo
    units :=
      [ { is_fused := false, is_active := true, whole_range := ⟨0, 1⟩, owning_range := ⟨0, 1⟩
          serial_module := .partitioned
            { vertex_num := 2, owning_range := ⟨0, 1⟩, weighted_edges := []
              interfaces := [], virtual_vertices := [] }
          parent := none }
      , { is_fused := false, is_active := true, whole_range := ⟨1, 2⟩, owning_range := ⟨1, 2⟩
          serial_module := .partitioned
            { vertex_num := 2, owning_range := ⟨1, 2⟩, weighted_edges := []
              interfaces := [], virtual_vertices := [] }
          parent := none }
      , { is_fused := false, is_active := true, whole_range := ⟨0, 2⟩, owning_range := ⟨1, 1⟩
          serial_module := .partitioned
            { vertex_num := 2, owning_range := ⟨1, 1⟩, weighted_edges := []
              interfaces := [], virtual_vertices := [] }
          parent := none } ]
    config := exCfgTwo
    partition_info := exInfoTwo }

/-- An eight-vertex global graph with no edges. -/
def exInitEight : SolverInitializer :=
  { vertex_num := 8, weighted_edges := [], virtual_vertices := [] }

/-- A configuration with two overlapping partitions. -/
def exCfgOverlap : DualModuleParallelConfig :=
  { partitions := [⟨0, 5⟩, ⟨3, 8⟩], fusions := [(0, 1)], edges_in_fusion_unit := true }

/-- A five-vertex global graph with two edges reaching the top interface
vertex. -/
def exInitFive : SolverInitializer :=
  { vertex_num := 5, weighted_edges := [(0, 3, 1), (1, 3, 1)], virtual_vertices := [] }

/-- Three partitions fused into a two-level tree, software edge
placement. -/
def exCfgFiveT : DualModuleParallelConfig :=
  { partitions := [⟨0, 1⟩, ⟨2, 3⟩, ⟨4, 5⟩], fusions := [(0, 1), (3, 2)]
    edges_in_fusion_unit := true }

/-- The same partitioning with hardware-faithful edge placement. -/
def exCfgFiveF : DualModuleParallelConfig :=
  { partitions := [⟨0, 1⟩, ⟨2, 3⟩, ⟨4, 5⟩], fusions := [(0, 1), (3, 2)]
    edges_in_fusion_unit := false }

/-- The planner output for the five-vertex example. -/
def exInfoFive : PartitionInfo :=
  { units :=
      [ { whole_range := ⟨0, 1⟩, owning_range := ⟨0, 1⟩, children := none, parent := some 3
          leaves := [0], descendants := ∅ }
      , { whole_range := ⟨2, 3⟩, owning_range := ⟨2, 3⟩, children := none, parent := some 3
          leaves := [1], descendants := ∅ }
      , { whole_range := ⟨4, 5⟩, owning_range := ⟨4, 5⟩, children := none, parent := some 4
          leaves := [2], descendants := ∅ }
      , { whole_range := ⟨0, 3⟩, owning_range := ⟨1, 2⟩, children := some (0, 1), parent := some 4
          leaves := [0, 1], descendants := {0, 1} }
      , { whole_range := ⟨0, 5⟩, owning_range := ⟨3, 4⟩, children := some (3, 2), parent := none
          leaves := [0, 1, 2], descendants := {3, 2, 0, 1} } ]
    vertex_to_owning_unit := [some 0, some 3, some 1, some 4, some 2] }

/-- The per-unit edge lists for the five-vertex example with
software edge placement. -/
def exResFive : List (List (ℕ × ℕ × ℕ)) := [[(0, 3, 1)], [], [], [(1, 3, 1)], []]

/-- A small two-unit module state used to instantiate theorems about the
runtime operations. -/
def exampleState : DualModuleParallelState :=
  { initializer := { vertex_num := 2, weighted_edges := [], virtual_vertices := [] }
    units :=
      [ { is_fused := false, is_active := true, whole_range := ⟨0, 1⟩, owning_range := ⟨0, 1⟩
          serial_module := .global { vertex_num := 2, weighted_edges := [], virtual_vertices := [] }
          parent := none }
      , { is_fused := true, is_active := false, whole_range := ⟨1, 2⟩, owning_range := ⟨1, 2⟩
          serial_module := .global { vertex_num := 2, weighted_edges := [], virtual_vertices := [] }
          parent := none } ]
    config := { partitions := [⟨0, 1⟩], fusions := [], edges_in_fusion_unit := true }
    partition_info := { units := [], vertex_to_owning_unit := [some 0, some 0] } }

/-- One walk of the active-ancestor search: from unit `i`, through inactive
units along parent pointers, to the first active unit `k`. -/
inductive WalksTo (units : List DualModuleParallelUnit) : ℕ → ℕ → Prop
  | here {i u} : units.get? i = some u → u.is_active = true → WalksTo units i i
  | there {i u p k} : units.get? i = some u → u.is_active = false → u.parent = some p →
      WalksTo units p k → WalksTo units i k

theorem clearUnitsFrom_get? (n : ℕ) :
    ∀ (us : List DualModuleParallelUnit) (start i : ℕ),
      (clearUnitsFrom n start us).get? i = (us.get? i).map fun u =>
        { u with is_fused := false, is_active := decide (start + i < n) } := by
  intro us
  induction us with
  | nil => intro start i; rfl
  | cons u rest ih =>
    intro start i
    cases i with
    | zero => rfl
    | succ i =>
      simp only [clearUnitsFrom, List.get?_cons_succ]
      rw [ih (start + 1) i, show start + 1 + i = start + (i + 1) from by omega]

theorem clearUnitsFrom_idem (n : ℕ) :
    ∀ (us : List DualModuleParallelUnit) (start : ℕ),
      clearUnitsFrom n start (clearUnitsFrom n start us) = clearUnitsFrom n start us := by
  intro us
  induction us with
  | nil => intro start; rfl
  | cons u rest ih => intro start; simp only [clearUnitsFrom, ih (start + 1)]

/-- C9: after `clear`, every unit is unfused and is active exactly when it
is a leaf unit (index below the partition count); applying `clear` twice
leaves the flags in the same state as applying it once. -/
theorem C9_clear_resets_flags_and_is_idempotent (st : DualModuleParallelState) :
    (∀ i u, (moduleClear st).units.get? i = some u →
        u.is_fused = false ∧ (u.is_active = true ↔ i < st.config.partitions.length)) ∧
    moduleClear (moduleClear st) = moduleClear st := by
  constructor
  · intro i u hu
    rw [show (moduleClear st).units = clearUnitsFrom st.config.partitions.length 0 st.units
          from rfl, clearUnitsFrom_get?] at hu
    cases hv : st.units.get? i with
    | none => rw [hv] at hu; exact absurd hu (by simp)
    | some v =>
      rw [hv] at hu
      simp only [Option.map_some'] at hu
      cases hu
      simp
  · simp only [moduleClear, clearUnitsFrom_idem]

/-- C5: the global `compute_maximum_update_length` is the `extend`-fold of
the local results of exactly the active units (inactive units contribute
nothing), and `extend` is commutative and associative, so the fold does not
depend on the order in which the per-unit results are merged. -/
theorem C5_merge_fold_active_commutative_associative :
    (∀ units : List UnitComputeState,
      computeMaximumUpdateLength units =
        ((units.filter fun u => u.is_active).map fun u => u.localResult).foldl
          GroupMaxUpdateLength.extend GroupMaxUpdateLength.new) ∧
    (∀ pre post : List UnitComputeState, ∀ u : UnitComputeState, u.is_active = false →
      computeMaximumUpdateLength (pre ++ u :: post) = computeMaximumUpdateLength (pre ++ post)) ∧
    (∀ a b : GroupMaxUpdateLength, a.extend b = b.extend a) ∧
    (∀ a b c : GroupMaxUpdateLength, (a.extend b).extend c = a.extend (b.extend c)) ∧
    (∀ l1 l2 : List GroupMaxUpdateLength, l1.Perm l2 →
      l1.foldl GroupMaxUpdateLength.extend GroupMaxUpdateLength.new =
        l2.foldl GroupMaxUpdateLength.extend GroupMaxUpdateLength.new) := by
  refine ⟨fun _ => rfl, ?_, ?_, ?_, ?_⟩
  · intro pre post u hu
    simp [computeMaximumUpdateLength, List.filter_append, List.filter_cons, hu]
  · intro a b
    cases a; cases b
    simp [GroupMaxUpdateLength.extend, Finset.union_comm, min_comm]
  · intro a b c
    cases a; cases b; cases c
    simp [GroupMaxUpdateLength.extend, Finset.union_assoc, min_assoc]
  · intro l1 l2 hp
    exact hp.foldl_eq' (fun x _ y _ z => by
      cases x; cases y; cases z
      simp only [GroupMaxUpdateLength.extend, GroupMaxUpdateLength.mk.injEq]
      exact ⟨Finset.union_right_comm _ _ _, min_right_comm _ _ _⟩) _

/-- Concrete instantiation of the C5 theorem. -/
theorem C5_merge_fold_witness :
    ((⟨false, ⟨∅, ⊤⟩⟩ : UnitComputeState).is_active = false ∧
      computeMaximumUpdateLength ([⟨true, ⟨∅, (3 : ℕ)⟩⟩] ++ (⟨false, ⟨∅, ⊤⟩⟩ : UnitComputeState) :: []) =
        computeMaximumUpdateLength ([⟨true, ⟨∅, (3 : ℕ)⟩⟩] ++ [])) ∧
    (([⟨∅, (3 : ℕ)⟩, ⟨∅, (5 : ℕ)⟩] : List GroupMaxUpdateLength).Perm [⟨∅, 5⟩, ⟨∅, 3⟩] ∧
      ([⟨∅, (3 : ℕ)⟩, ⟨∅, (5 : ℕ)⟩] : List GroupMaxUpdateLength).foldl
          GroupMaxUpdateLength.extend GroupMaxUpdateLength.new =
        ([⟨∅, (5 : ℕ)⟩, ⟨∅, (3 : ℕ)⟩] : List GroupMaxUpdateLength).foldl
          GroupMaxUpdateLength.extend GroupMaxUpdateLength.new) :=
  ⟨⟨rfl, C5_merge_fold_active_commutative_associative.2.1 _ _ _ rfl⟩,
    List.Perm.swap _ _ _,
    C5_merge_fold_active_commutative_associative.2.2.2.2 _ _ (List.Perm.swap _ _ _)⟩

theorem findActiveAncestorAux_isSome (units : List DualModuleParallelUnit)
    (hpar : ∀ i u p, units.get? i = some u → u.parent = some p → i < p) :
    ∀ fuel cur, units.length - cur < fuel →
      (findActiveAncestorAux units fuel cur).isSome = true := by
  intro fuel
  induction fuel with
  | zero => intro cur h; omega
  | succ fuel ih =>
    intro cur h
    show (findActiveAncestorAux units (fuel + 1) cur).isSome = true
    rw [findActiveAncestorAux]
    cases hg : units.get? cur with
    | none => rfl
    | some u =>
      by_cases ha : u.is_active
      · simp [ha]
      · simp only [ha, if_false]
        cases hp : u.parent with
        | none => rfl
        | some p =>
          have hlt : cur < p := hpar cur u p hg hp
          have hcur : cur < units.length := by
            by_contra hh
            rw [List.get?_eq_none.mpr (by omega)] at hg
            exact absurd hg (by simp)
          exact ih p (by omega)

theorem findActiveAncestorAux_walksTo (units : List DualModuleParallelUnit) :
    ∀ fuel cur k, findActiveAncestorAux units fuel cur = some (some k) →
      WalksTo units cur k := by
  intro fuel
  induction fuel with
  | zero => intro cur k h; exact absurd h (by simp [findActiveAncestorAux])
  | succ fuel ih =>
    intro cur k h
    rw [findActiveAncestorAux] at h
    cases hg : units.get? cur with
    | none => rw [hg] at h; exact absurd h (by simp)
    | some u =>
      rw [hg] at h
      by_cases ha : u.is_active
      · simp only [ha, if_true, Option.some.injEq] at h
        cases h
        exact WalksTo.here hg ha
      · simp only [ha, if_false] at h
        cases hp : u.parent with
        | none => rw [hp] at h; exact absurd h (by simp)
        | some p =>
          rw [hp] at h
          exact WalksTo.there hg (by simpa using ha) hp (ih p k h)

/-- C6: `find_active_ancestor` starts at the unit owning the dual node's
representative vertex and walks parent pointers to the first active unit;
with strictly increasing parent pointers (true of every reachable module
state, whose parent pointers form the partition tree) the walk always
terminates, and all five per-node operations delegate to the unit it
returns. -/
theorem C6_find_active_ancestor_walk (st : DualModuleParallelState)
    (hpar : ∀ i u p, st.units.get? i = some u → u.parent = some p → i < p) :
    (∀ rep, (findActiveAncestor st rep).isSome = true) ∧
    (∀ rep ou, st.partition_info.vertex_to_owning_unit.getD rep none = some ou →
      findActiveAncestor st rep = findActiveAncestorAux st.units (st.units.length + 1) ou) ∧
    (∀ cur k, findActiveAncestorAux st.units (st.units.length + 1) cur = some (some k) →
      WalksTo st.units cur k) ∧
    (∀ rep, addDualNodeUnit st rep = findActiveAncestor st rep ∧
      removeBlossomUnit st rep = findActiveAncestor st rep ∧
      setGrowStateUnit st rep = findActiveAncestor st rep ∧
      computeMaximumUpdateLengthDualNodeUnit st rep = findActiveAncestor st rep ∧
      growDualNodeUnit st rep = findActiveAncestor st rep) := by
  refine ⟨?_, ?_, ?_, fun rep => ⟨rfl, rfl, rfl, rfl, rfl⟩⟩
  · intro rep
    rw [findActiveAncestor]
    cases hm : st.partition_info.vertex_to_owning_unit.getD rep none with
    | none => rfl
    | some ou => exact findActiveAncestorAux_isSome st.units hpar _ ou (by omega)
  · intro rep ou hown
    rw [findActiveAncestor, hown]
  · exact fun cur k h => findActiveAncestorAux_walksTo st.units _ cur k h

/-- Concrete instantiation of the C9 theorem. -/
theorem C9_clear_witness :
    (moduleClear exampleState).units.get? 1 =
      some { is_fused := false, is_active := false, whole_range := ⟨1, 2⟩, owning_range := ⟨1, 2⟩
             serial_module := .global { vertex_num := 2, weighted_edges := [], virtual_vertices := [] }
             parent := none } ∧
    ((false : Bool) = false ∧ ((false : Bool) = true ↔ 1 < 1)) ∧
    moduleClear (moduleClear exampleState) = moduleClear exampleState :=
  ⟨rfl, (C9_clear_resets_flags_and_is_idempotent exampleState).1 1 _ rfl,
    (C9_clear_resets_flags_and_is_idempotent exampleState).2⟩

/-- Concrete instantiation of the C6 theorem. -/
theorem C6_walk_witness :
    (∀ i u p, exampleState.units.get? i = some u → u.parent = some p → i < p) ∧
    (findActiveAncestor exampleState 1).isSome = true := by
  have hpar : ∀ i u p, exampleState.units.get? i = some u → u.parent = some p → i < p := by
    intro i u p hg hp
    match i with
    | 0 => cases hg; cases hp
    | 1 => cases hg; cases hp
    | n + 2 => cases hg
  exact ⟨hpar, (C6_find_active_ancestor_walk exampleState hpar).1 1⟩

theorem listGetD_set {α : Type} (l : List α) (i j : ℕ) (a d : α) :
    (l.set i a).getD j d = if i = j ∧ j < l.length then a else l.getD j d := by
  simp only [List.getD_eq_getElem?_getD, List.getElem?_set]
  by_cases h : i = j
  · subst h
    by_cases h2 : i < l.length
    · simp [h2]
    · simp [h2, List.getElem?_eq_none (show l.length ≤ i by omega)]
  · simp [h]

theorem listGetD_replicate {α : Type} (n i : ℕ) (d : α) :
    (List.replicate n d).getD i d = d := by
  simp only [List.getD_eq_getElem?_getD, List.getElem?_replicate]
  split <;> rfl

theorem Reaches.le_of_increasing {P : List (Option ℕ)} (hP : IncreasingParents P) :
    ∀ {u m}, Reaches P u m → u ≤ m := by
  intro u m h
  induction h with
  | refl => exact le_rfl
  | step hp _ ih => exact le_of_lt (lt_of_lt_of_le (hP _ _ hp) ih)

theorem Reaches.top {P : List (Option ℕ)} :
    ∀ {u m c}, Reaches P u m → P.getD m none = some c → Reaches P u c := by
  intro u m c h
  induction h with
  | refl => exact fun hc => Reaches.step hc (Reaches.refl _)
  | step hp _ ih => exact fun hc => Reaches.step hp (ih hc)

theorem Reaches.lastStep {P : List (Option ℕ)} :
    ∀ {u m}, Reaches P u m → u = m ∨ ∃ c, P.getD c none = some m ∧ Reaches P u c := by
  intro u m h
  induction h with
  | refl => exact Or.inl rfl
  | @step i p k hp hr ih =>
    cases ih with
    | inl he => exact Or.inr ⟨i, he ▸ hp, Reaches.refl _⟩
    | inr hex =>
      obtain ⟨c, hc, hrc⟩ := hex
      exact Or.inr ⟨c, hc, Reaches.step hp hrc⟩

theorem Reaches.linear {P : List (Option ℕ)} :
    ∀ {u a}, Reaches P u a → ∀ {b}, Reaches P u b → Reaches P a b ∨ Reaches P b a := by
  intro u a h
  induction h with
  | refl => exact fun hb => Or.inl hb
  | @step i p k hp hr ih =>
    intro b hb
    cases hb with
    | refl => exact Or.inr (Reaches.step hp hr)
    | @step _ p2 _ hp2 hr2 =>
      have hpp : p = p2 := by rw [hp] at hp2; exact Option.some_inj.mp hp2
      exact ih (hpp ▸ hr2)

theorem fuseLoop_cons_ok {l r : ℕ} {rest : List (ℕ × ℕ)}
    {whole owning : List VertexRange} {parents : List (Option ℕ)}
    {res : List VertexRange × List VertexRange × List (Option ℕ)} :
    fuseLoop ((l, r) :: rest) whole owning parents = .ok res ↔
      l < whole.length ∧ r < whole.length ∧
      parents.getD l none = none ∧ parents.getD r none = none ∧
      (whole.getD l ⟨0, 0⟩).lo ≤ (whole.getD l ⟨0, 0⟩).hi ∧
      (whole.getD r ⟨0, 0⟩).lo ≤ (whole.getD r ⟨0, 0⟩).hi ∧
      (whole.getD l ⟨0, 0⟩).hi ≤ (whole.getD r ⟨0, 0⟩).lo ∧
      fuseLoop rest (whole ++ [⟨(whole.getD l ⟨0, 0⟩).lo, (whole.getD r ⟨0, 0⟩).hi⟩])
        (owning ++ [⟨(whole.getD l ⟨0, 0⟩).hi, (whole.getD r ⟨0, 0⟩).lo⟩])
        ((parents.set l (some whole.length)).set r (some whole.length)) = .ok res := by
  rw [fuseLoop]
  split_ifs with h1 h2 h3 h4 h5 h6 h7
  · exact ⟨fun h => absurd h (by simp), fun h => absurd h.1 (by omega)⟩
  · exact ⟨fun h => absurd h (by simp), fun h => absurd h.2.1 (by omega)⟩
  · exact ⟨fun h => absurd h (by simp), fun h => by rw [h.2.2.1] at h3; exact absurd h3 (by simp)⟩
  · exact ⟨fun h => absurd h (by simp), fun h => by rw [h.2.2.2.1] at h4; exact absurd h4 (by simp)⟩
  · exact ⟨fun h => absurd h (by simp), fun h => absurd h.2.2.2.2.1 (by omega)⟩
  · exact ⟨fun h => absurd h (by simp), fun h => absurd h.2.2.2.2.2.1 (by omega)⟩
  · exact ⟨fun h => absurd h (by simp), fun h => absurd h.2.2.2.2.2.2.1 (by omega)⟩
  · constructor
    · intro h
      refine ⟨by omega, by omega, Option.not_isSome_iff_eq_none.mp h3,
        Option.not_isSome_iff_eq_none.mp h4, by omega, by omega, by omega, h⟩
    · exact fun h => h.2.2.2.2.2.2.2

theorem fuseLoop_ok_lengths :
    ∀ (fs : List (ℕ × ℕ)) (whole owning : List VertexRange) (parents : List (Option ℕ))
      (W O : List VertexRange) (P : List (Option ℕ)),
      fuseLoop fs whole owning parents = .ok (W, O, P) →
      W.length = whole.length + fs.length ∧ O.length = owning.length + fs.length ∧
        P.length = parents.length := by
  intro fs
  induction fs with
  | nil =>
    intro whole owning parents W O P h
    simp only [fuseLoop, Except.ok.injEq, Prod.mk.injEq] at h
    obtain ⟨h1, h2, h3⟩ := h
    subst h1 h2 h3
    simp
  | cons hd rest ih =>
    intro whole owning parents W O P h
    obtain ⟨l, r⟩ := hd
    rw [fuseLoop_cons_ok] at h
    obtain ⟨-, -, -, -, -, -, -, h8⟩ := h
    have := ih _ _ _ W O P h8
    simp only [List.length_append, List.length_singleton, List.length_set] at this
    simp only [List.length_cons]
    omega

theorem fuseLoop_ok_prefix :
    ∀ (fs : List (ℕ × ℕ)) (whole owning : List VertexRange) (parents : List (Option ℕ))
      (W O : List VertexRange) (P : List (Option ℕ)),
      fuseLoop fs whole owning parents = .ok (W, O, P) →
      (∀ i, i < whole.length → W.getD i ⟨0, 0⟩ = whole.getD i ⟨0, 0⟩) ∧
      (∀ i, i < owning.length → O.getD i ⟨0, 0⟩ = owning.getD i ⟨0, 0⟩) := by
  intro fs
  induction fs with
  | nil =>
    intro whole owning parents W O P h
    simp only [fuseLoop, Except.ok.injEq, Prod.mk.injEq] at h
    obtain ⟨h1, h2, h3⟩ := h
    subst h1 h2 h3
    exact ⟨fun i _ => rfl, fun i _ => rfl⟩
  | cons hd rest ih =>
    intro whole owning parents W O P h
    obtain ⟨l, r⟩ := hd
    rw [fuseLoop_cons_ok] at h
    obtain ⟨-, -, -, -, -, -, -, h8⟩ := h
    obtain ⟨ihW, ihO⟩ := ih _ _ _ W O P h8
    constructor
    · intro i hi
      rw [ihW i (by simp; omega), List.getD_append _ _ _ _ hi]
    · intro i hi
      rw [ihO i (by simp; omega), List.getD_append _ _ _ _ hi]

theorem fuseLoop_ok_some_preserved :
    ∀ (fs : List (ℕ × ℕ)) (whole owning : List VertexRange) (parents : List (Option ℕ))
      (W O : List VertexRange) (P : List (Option ℕ)),
      fuseLoop fs whole owning parents = .ok (W, O, P) →
      ∀ i v, parents.getD i none = some v → P.getD i none = some v := by
  intro fs
  induction fs with
  | nil =>
    intro whole owning parents W O P h
    simp only [fuseLoop, Except.ok.injEq, Prod.mk.injEq] at h
    obtain ⟨h1, h2, h3⟩ := h
    subst h1 h2 h3
    exact fun i v hv => hv
  | cons hd rest ih =>
    intro whole owning parents W O P h i v hv
    obtain ⟨l, r⟩ := hd
    rw [fuseLoop_cons_ok] at h
    obtain ⟨-, -, c3, c4, -, -, -, h8⟩ := h
    refine ih _ _ _ W O P h8 i v ?_
    rw [listGetD_set, listGetD_set]
    have hil : i ≠ l := fun he => by rw [he, c3] at hv; exact Option.noConfusion hv
    have hir : i ≠ r := fun he => by rw [he, c4] at hv; exact Option.noConfusion hv
    rw [if_neg (by simp [Ne.symm hir]), if_neg (by simp [Ne.symm hil])]
    exact hv

theorem fuseLoop_ok_step :
    ∀ (fs : List (ℕ × ℕ)) (whole owning : List VertexRange) (parents : List (Option ℕ))
      (W O : List VertexRange) (P : List (Option ℕ)),
      fuseLoop fs whole owning parents = .ok (W, O, P) →
      owning.length = whole.length →
      whole.length + fs.length ≤ parents.length →
      ∀ k, ∀ hk : k < fs.length,
        (fs.get ⟨k, hk⟩).1 < whole.length + k ∧ (fs.get ⟨k, hk⟩).2 < whole.length + k ∧
        (W.getD (fs.get ⟨k, hk⟩).1 ⟨0, 0⟩).lo ≤ (W.getD (fs.get ⟨k, hk⟩).1 ⟨0, 0⟩).hi ∧
        (W.getD (fs.get ⟨k, hk⟩).2 ⟨0, 0⟩).lo ≤ (W.getD (fs.get ⟨k, hk⟩).2 ⟨0, 0⟩).hi ∧
        (W.getD (fs.get ⟨k, hk⟩).1 ⟨0, 0⟩).hi ≤ (W.getD (fs.get ⟨k, hk⟩).2 ⟨0, 0⟩).lo ∧
        W.getD (whole.length + k) ⟨0, 0⟩ =
          ⟨(W.getD (fs.get ⟨k, hk⟩).1 ⟨0, 0⟩).lo, (W.getD (fs.get ⟨k, hk⟩).2 ⟨0, 0⟩).hi⟩ ∧
        O.getD (whole.length + k) ⟨0, 0⟩ =
          ⟨(W.getD (fs.get ⟨k, hk⟩).1 ⟨0, 0⟩).hi, (W.getD (fs.get ⟨k, hk⟩).2 ⟨0, 0⟩).lo⟩ ∧
        P.getD (fs.get ⟨k, hk⟩).1 none = some (whole.length + k) ∧
        P.getD (fs.get ⟨k, hk⟩).2 none = some (whole.length + k) := by
  intro fs
  induction fs with
  | nil => intro _ _ _ _ _ _ _ _ _ k hk; exact absurd hk (by simp)
  | cons hd rest ih =>
    intro whole owning parents W O P h halign hplen
    obtain ⟨l, r⟩ := hd
    rw [fuseLoop_cons_ok] at h
    obtain ⟨c1, c2, c3, c4, c5, c6, c7, h8⟩ := h
    simp only [List.length_cons] at hplen
    obtain ⟨ihW, ihO⟩ := fuseLoop_ok_prefix _ _ _ _ W O P h8
    have hWl : W.getD l ⟨0, 0⟩ = whole.getD l ⟨0, 0⟩ := by
      rw [ihW l (by simp; omega), List.getD_append _ _ _ _ c1]
    have hWr : W.getD r ⟨0, 0⟩ = whole.getD r ⟨0, 0⟩ := by
      rw [ihW r (by simp; omega), List.getD_append _ _ _ _ c2]
    intro k hk
    cases k with
    | zero =>
      simp only [List.get, Nat.add_zero]
      have hWn : W.getD whole.length ⟨0, 0⟩ =
          ⟨(whole.getD l ⟨0, 0⟩).lo, (whole.getD r ⟨0, 0⟩).hi⟩ := by
        rw [ihW whole.length (by simp), List.getD_append_right _ _ _ _ (le_refl _)]
        simp
      have hOn : O.getD whole.length ⟨0, 0⟩ =
          ⟨(whole.getD l ⟨0, 0⟩).hi, (whole.getD r ⟨0, 0⟩).lo⟩ := by
        rw [ihO whole.length (by simp only [List.length_append, List.length_singleton]; omega),
          List.getD_append_right _ _ _ _ (by omega)]
        rw [show whole.length - owning.length = 0 from by omega]
        rfl
      have hPl : P.getD l none = some whole.length := by
        refine fuseLoop_ok_some_preserved _ _ _ _ W O P h8 l _ ?_
        rw [listGetD_set, listGetD_set]
        by_cases hrl : r = l
        · rw [if_pos ⟨hrl, by simp [List.length_set]; omega⟩]
        · rw [if_neg (by simp [hrl]), if_pos ⟨rfl, by omega⟩]
      have hPr : P.getD r none = some whole.length := by
        refine fuseLoop_ok_some_preserved _ _ _ _ W O P h8 r _ ?_
        rw [listGetD_set, if_pos ⟨rfl, by simp [List.length_set]; omega⟩]
      rw [hWl, hWr]
      exact ⟨c1, c2, c5, c6, c7, hWn, hOn, hPl, hPr⟩
    | succ k =>
      have hrk : k < rest.length := by simpa using hk
      have := ih _ _ _ W O P h8 (by simp [halign])
        (by simp only [List.length_append, List.length_singleton, List.length_set]; omega)
        k hrk
      have hgg : rest.get ⟨k, hrk⟩ = ((l, r) :: rest).get ⟨k + 1, hk⟩ := rfl
      rw [hgg] at this
      simp only [List.length_append, List.length_singleton] at this
      have harith : whole.length + 1 + k = whole.length + (k + 1) := by omega
      rw [harith] at this
      exact this

theorem fuseLoop_ok_parent_inv :
    ∀ (fs : List (ℕ × ℕ)) (whole owning : List VertexRange) (parents : List (Option ℕ))
      (W O : List VertexRange) (P : List (Option ℕ)),
      fuseLoop fs whole owning parents = .ok (W, O, P) →
      ∀ i m, P.getD i none = some m → parents.getD i none = some m ∨
        ∃ k, ∃ hk : k < fs.length, m = whole.length + k ∧
          ((fs.get ⟨k, hk⟩).1 = i ∨ (fs.get ⟨k, hk⟩).2 = i) := by
  intro fs
  induction fs with
  | nil =>
    intro whole owning parents W O P h i m hv
    simp only [fuseLoop, Except.ok.injEq, Prod.mk.injEq] at h
    obtain ⟨h1, h2, h3⟩ := h
    subst h3
    exact Or.inl hv
  | cons hd rest ih =>
    intro whole owning parents W O P h i m hv
    obtain ⟨l, r⟩ := hd
    rw [fuseLoop_cons_ok] at h
    obtain ⟨c1, c2, c3, c4, -, -, -, h8⟩ := h
    cases ih _ _ _ W O P h8 i m hv with
    | inl hpre =>
      rw [listGetD_set, listGetD_set] at hpre
      by_cases hri : r = i ∧ i < (parents.set l (some whole.length)).length
      · rw [if_pos hri] at hpre
        exact Or.inr ⟨0, by simp, by injection hpre with hh; omega, Or.inr hri.1⟩
      · rw [if_neg hri] at hpre
        by_cases hli : l = i ∧ i < parents.length
        · rw [if_pos hli] at hpre
          exact Or.inr ⟨0, by simp, by injection hpre with hh; omega, Or.inl hli.1⟩
        · rw [if_neg hli] at hpre
          exact Or.inl hpre
    | inr hex =>
      obtain ⟨k, hk, hm, hor⟩ := hex
      refine Or.inr ⟨k + 1, by simpa using Nat.succ_lt_succ hk, ?_, hor⟩
      simp only [List.length_append, List.length_singleton] at hm
      omega

theorem PartitionInfo.new_ok_elim {config : DualModuleParallelConfig}
    {initializer : SolverInitializer} {info : PartitionInfo}
    (h : PartitionInfo.new config initializer = .ok info) :
    ∃ W O P, config.partitions.isEmpty = false ∧
      (config.partitions.all fun p =>
        decide (p.lo ≤ p.hi) && decide (p.hi ≤ initializer.vertex_num)) = true ∧
      fuseLoop config.fusions config.partitions config.partitions
        (List.replicate (config.partitions.length + config.fusions.length) none) = .ok (W, O, P) ∧
      ((List.range (config.partitions.length + config.fusions.length - 1)).all fun i =>
        (P.getD i none).isSome) = true ∧
      W.getD (config.partitions.length + config.fusions.length - 1) ⟨0, 0⟩ =
        ⟨0, initializer.vertex_num⟩ ∧
      info.units = (List.range (config.partitions.length + config.fusions.length)).map (fun i =>
        { whole_range := W.getD i ⟨0, 0⟩
          owning_range := O.getD i ⟨0, 0⟩
          children := if i < config.partitions.length then none
            else some (config.fusions.getD (i - config.partitions.length) (0, 0))
          parent := P.getD i none
          leaves := (leavesDescLoop config.fusions
            ((List.range config.partitions.length).map fun i => [i])
            (List.replicate config.partitions.length ∅)).1.getD i []
          descendants := (leavesDescLoop config.fusions
            ((List.range config.partitions.length).map fun i => [i])
            (List.replicate config.partitions.length ∅)).2.getD i ∅ }) ∧
      info.vertex_to_owning_unit = vertexMapLoop 0 O (List.replicate initializer.vertex_num none) := by
  rw [PartitionInfo.new] at h
  by_cases h1 : config.partitions.isEmpty = true
  · rw [if_pos h1] at h; exact absurd h (by simp)
  · rw [if_neg h1] at h
    by_cases h2 : (config.partitions.all fun p =>
        decide (p.lo ≤ p.hi) && decide (p.hi ≤ initializer.vertex_num)) = true
    · rw [if_neg (not_not_intro h2)] at h
      cases hfl : fuseLoop config.fusions config.partitions config.partitions
          (List.replicate (config.partitions.length + config.fusions.length) none) with
      | error e => rw [hfl] at h; exact absurd h (by simp)
      | ok wop =>
        obtain ⟨W, O, P⟩ := wop
        rw [hfl] at h
        dsimp only at h
        by_cases h3 : ((List.range (config.partitions.length + config.fusions.length - 1)).all
            fun i => (P.getD i none).isSome) = true
        · rw [if_neg (not_not_intro h3)] at h
          by_cases h4 : (W.getD (config.partitions.length + config.fusions.length - 1) ⟨0, 0⟩).lo = 0
          · rw [if_neg (not_not_intro h4)] at h
            by_cases h5 : (W.getD (config.partitions.length + config.fusions.length - 1) ⟨0, 0⟩).hi
                = initializer.vertex_num
            · rw [if_neg (not_not_intro h5)] at h
              have hinfo := (Except.ok.inj h).symm
              subst hinfo
              refine ⟨W, O, P, by simpa using h1, h2, rfl, h3, ?_, rfl, rfl⟩
              cases hw : W.getD (config.partitions.length + config.fusions.length - 1) ⟨0, 0⟩
              rw [hw] at h4 h5
              simpa using ⟨h4, h5⟩
            · rw [if_pos h5] at h; exact absurd h (by simp)
          · rw [if_pos h4] at h; exact absurd h (by simp)
        · rw [if_pos h3] at h; exact absurd h (by simp)
    · rw [if_pos h2] at h; exact absurd h (by simp)

theorem mapRange_getD {α : Type} (d : α) (g : ℕ → α) (total i : ℕ) (hi : i < total) :
    ((List.range total).map g).getD i d = g i := by
  rw [List.getD_eq_getElem _ _ (by simpa using hi)]
  simp

theorem fusePlanFacts_of_ok {fs : List (ℕ × ℕ)} {parts W O : List VertexRange}
    {P : List (Option ℕ)} {V : ℕ}
    (hfl : fuseLoop fs parts parts (List.replicate (parts.length + fs.length) none) = .ok (W, O, P))
    (hall : (parts.all fun p => decide (p.lo ≤ p.hi) && decide (p.hi ≤ V)) = true)
    (hpar_all : ((List.range (parts.length + fs.length - 1)).all fun i =>
      (P.getD i none).isSome) = true) :
    FusePlanFacts parts.length fs W O P := by
  have hlen := fuseLoop_ok_lengths _ _ _ _ _ _ _ hfl
  have hpre := fuseLoop_ok_prefix _ _ _ _ _ _ _ hfl
  have hstep := fuseLoop_ok_step _ _ _ _ _ _ _ hfl rfl (by simp)
  have hinv := fuseLoop_ok_parent_inv _ _ _ _ _ _ _ hfl
  refine ⟨by omega, by omega, by simpa using hlen.2.2, ?_, ?_, hstep, ?_, ?_⟩
  · intro i hi
    rw [hpre.1 i hi, hpre.2 i hi]
  · intro i hi
    rw [hpre.1 i hi]
    have hmem : parts.getD i ⟨0, 0⟩ ∈ parts := by
      rw [List.getD_eq_getElem _ _ hi]
      exact List.getElem_mem _
    have := (List.all_eq_true.mp hall) _ hmem
    simp only [Bool.and_eq_true, decide_eq_true_eq] at this
    exact this.1
  · intro i m hm
    cases hinv i m hm with
    | inl hpre2 => rw [listGetD_replicate] at hpre2; exact Option.noConfusion hpre2
    | inr hex => exact hex
  · intro i hi
    have := List.all_eq_true.mp hpar_all i (List.mem_range.mpr hi)
    simpa using this

theorem FusePlanFacts.increasing {n : ℕ} {fs : List (ℕ × ℕ)} {W O : List VertexRange}
    {P : List (Option ℕ)} (h : FusePlanFacts n fs W O P) : IncreasingParents P := by
  intro i p hp
  obtain ⟨k, hk, hpk, hor⟩ := h.parent_inv i p hp
  obtain ⟨hl, hr, -⟩ := h.step k hk
  cases hor with
  | inl he => omega
  | inr he => omega

theorem FusePlanFacts.parent_range {n : ℕ} {fs : List (ℕ × ℕ)} {W O : List VertexRange}
    {P : List (Option ℕ)} (h : FusePlanFacts n fs W O P) :
    ∀ i m, P.getD i none = some m → n ≤ m ∧ m < n + fs.length := by
  intro i m hm
  obtain ⟨k, hk, hpk, -⟩ := h.parent_inv i m hm
  omega

theorem FusePlanFacts.reach_root_aux {n : ℕ} {fs : List (ℕ × ℕ)} {W O : List VertexRange}
    {P : List (Option ℕ)} (h : FusePlanFacts n fs W O P) :
    ∀ d i, i < n + fs.length → n + fs.length - 1 - i ≤ d → Reaches P i (n + fs.length - 1) := by
  intro d
  induction d with
  | zero =>
    intro i hi hd
    have : i = n + fs.length - 1 := by omega
    exact this ▸ Reaches.refl _
  | succ d ih =>
    intro i hi hd
    by_cases hroot : i = n + fs.length - 1
    · exact hroot ▸ Reaches.refl _
    · have hlt : i < n + fs.length - 1 := by omega
      obtain ⟨m, hm⟩ := Option.isSome_iff_exists.mp (h.parent_all i hlt)
      have hrange := h.parent_range i m hm
      have hinc : i < m := h.increasing i m hm
      exact Reaches.step hm (ih m (by omega) (by omega))

theorem FusePlanFacts.reach_root {n : ℕ} {fs : List (ℕ × ℕ)} {W O : List VertexRange}
    {P : List (Option ℕ)} (h : FusePlanFacts n fs W O P) :
    ∀ i, i < n + fs.length → Reaches P i (n + fs.length - 1) :=
  fun i hi => h.reach_root_aux (n + fs.length - 1 - i) i hi (le_refl _)

theorem FusePlanFacts.subtree_main {n : ℕ} {fs : List (ℕ × ℕ)} {W O : List VertexRange}
    {P : List (Option ℕ)} (h : FusePlanFacts n fs W O P) :
    ∀ m : ℕ,
      (∀ u, Reaches P u m → ∀ v, (O.getD u ⟨0, 0⟩).contains v →
        (W.getD m ⟨0, 0⟩).contains v) ∧
      (∀ u w, Reaches P u m → Reaches P w m → u ≠ w →
        ∀ v, ¬ ((O.getD u ⟨0, 0⟩).contains v ∧ (O.getD w ⟨0, 0⟩).contains v)) := by
  intro m
  induction m using Nat.strong_induction_on with
  | _ m ih =>
    by_cases hm : m < n + fs.length
    case neg =>
      have hre : ∀ u, Reaches P u m → u = m := by
        intro u hu
        cases hu.lastStep with
        | inl he => exact he
        | inr hex =>
          obtain ⟨c, hc, -⟩ := hex
          have := h.parent_range c m hc
          omega
      constructor
      · intro u hu v hv
        rw [hre u hu, List.getD_eq_default _ _ (by have := h.olen; omega : O.length ≤ m)] at hv
        simp only [VertexRange.contains] at hv
        omega
      · intro u w hu hw hne v hv
        rw [hre u hu, hre w hw] at hne
        exact hne rfl
    case pos =>
      by_cases hleaf : m < n
      · have hre : ∀ u, Reaches P u m → u = m := by
          intro u hu
          cases hu.lastStep with
          | inl he => exact he
          | inr hex =>
            obtain ⟨c, hc, -⟩ := hex
            have := h.parent_range c m hc
            omega
        constructor
        · intro u hu v hv
          rw [hre u hu, h.leaf_eq m hleaf] at hv
          exact hv
        · intro u w hu hw hne v hv
          rw [hre u hu, hre w hw] at hne
          exact hne rfl
      · obtain ⟨k, hk, hmk⟩ : ∃ k, ∃ hk : k < fs.length, m = n + k :=
          ⟨m - n, by omega, by omega⟩
        subst hmk
        obtain ⟨hl, hr, sl, sr, hlr, hWm, hOm, hPl, hPr⟩ := h.step k hk
        have hdec : ∀ u, Reaches P u (n + k) →
            u = n + k ∨ Reaches P u (fs.get ⟨k, hk⟩).1 ∨ Reaches P u (fs.get ⟨k, hk⟩).2 := by
          intro u hu
          cases hu.lastStep with
          | inl he => exact Or.inl he
          | inr hex =>
            obtain ⟨c, hc, hrc⟩ := hex
            obtain ⟨k2, hk2, hmk2, hor⟩ := h.parent_inv c (n + k) hc
            have hkk : k2 = k := by omega
            subst hkk
            cases hor with
            | inl hcl => exact Or.inr (Or.inl (hcl ▸ hrc))
            | inr hcr => exact Or.inr (Or.inr (hcr ▸ hrc))
        have ihl := ih (fs.get ⟨k, hk⟩).1 (by omega)
        have ihr := ih (fs.get ⟨k, hk⟩).2 (by omega)
        have hcont : ∀ u, Reaches P u (n + k) → ∀ v, (O.getD u ⟨0, 0⟩).contains v →
            (W.getD (n + k) ⟨0, 0⟩).contains v := by
          intro u hu v hv
          rw [hWm]
          cases hdec u hu with
          | inl he =>
            rw [he, hOm] at hv
            simp only [VertexRange.contains] at hv ⊢
            omega
          | inr hor =>
            cases hor with
            | inl hul =>
              have := ihl.1 u hul v hv
              simp only [VertexRange.contains] at this ⊢
              omega
            | inr hur =>
              have := ihr.1 u hur v hv
              simp only [VertexRange.contains] at this ⊢
              omega
        refine ⟨hcont, ?_⟩
        intro u w hu hw hne v hv
        obtain ⟨hvu, hvw⟩ := hv
        cases hdec u hu with
        | inl heu =>
          cases hdec w hw with
          | inl hew => exact hne (heu.trans hew.symm)
          | inr horw =>
            rw [heu, hOm] at hvu
            cases horw with
            | inl hwl =>
              have := ihl.1 w hwl v hvw
              simp only [VertexRange.contains] at hvu this
              omega
            | inr hwr =>
              have := ihr.1 w hwr v hvw
              simp only [VertexRange.contains] at hvu this
              omega
        | inr horu =>
          cases hdec w hw with
          | inl hew =>
            rw [hew, hOm] at hvw
            cases horu with
            | inl hul =>
              have := ihl.1 u hul v hvu
              simp only [VertexRange.contains] at hvw this
              omega
            | inr hur =>
              have := ihr.1 u hur v hvu
              simp only [VertexRange.contains] at hvw this
              omega
          | inr horw =>
            cases horu with
            | inl hul =>
              cases horw with
              | inl hwl => exact ihl.2 u w hul hwl hne v ⟨hvu, hvw⟩
              | inr hwr =>
                have h1 := ihl.1 u hul v hvu
                have h2 := ihr.1 w hwr v hvw
                simp only [VertexRange.contains] at h1 h2
                omega
            | inr hur =>
              cases horw with
              | inl hwl =>
                have h1 := ihr.1 u hur v hvu
                have h2 := ihl.1 w hwl v hvw
                simp only [VertexRange.contains] at h1 h2
                omega
              | inr hwr => exact ihr.2 u w hur hwr hne v ⟨hvu, hvw⟩

theorem foldlSet_getD {u : ℕ} :
    ∀ (ps : List ℕ) (m : List (Option ℕ)) (v : ℕ),
      (ps.foldl (fun m v => m.set v (some u)) m).getD v none =
        if v ∈ ps ∧ v < m.length then some u else m.getD v none := by
  intro ps
  induction ps with
  | nil => intro m v; simp
  | cons p ps ih =>
    intro m v
    simp only [List.foldl_cons]
    rw [ih]
    simp only [List.length_set]
    by_cases hv : v ∈ ps ∧ v < m.length
    · rw [if_pos hv, if_pos ⟨List.mem_cons_of_mem _ hv.1, hv.2⟩]
    · rw [if_neg hv, listGetD_set]
      by_cases hpv : p = v ∧ v < m.length
      · rw [if_pos hpv, if_pos ⟨by simp [hpv.1.symm], hpv.2⟩]
      · have hno : ¬ (v ∈ p :: ps ∧ v < m.length) := by
          rintro ⟨hmem, hlen⟩
          rcases List.mem_cons.mp hmem with he | hm
          · exact hpv ⟨he.symm, hlen⟩
          · exact hv ⟨hm, hlen⟩
        rw [if_neg hpv, if_neg hno]

theorem foldlSet_length {u : ℕ} :
    ∀ (ps : List ℕ) (m : List (Option ℕ)),
      (ps.foldl (fun m v => m.set v (some u)) m).length = m.length := by
  intro ps
  induction ps with
  | nil => intro m; rfl
  | cons p ps ih => intro m; simp only [List.foldl_cons]; rw [ih]; simp

theorem memRange_iff_contains (rng : VertexRange) (v : ℕ) :
    v ∈ rng.toList ↔ rng.contains v := by
  simp only [VertexRange.toList, List.mem_range'_1, VertexRange.contains]
  omega

theorem writeRange_getD (u : ℕ) (rng : VertexRange) (m : List (Option ℕ)) (v : ℕ) :
    (writeRange u rng m).getD v none =
      if rng.contains v ∧ v < m.length then some u else m.getD v none := by
  rw [writeRange, foldlSet_getD]
  by_cases hc : rng.contains v ∧ v < m.length
  · rw [if_pos ⟨(memRange_iff_contains rng v).mpr hc.1, hc.2⟩, if_pos hc]
  · rw [if_neg (fun hcon => hc ⟨(memRange_iff_contains rng v).mp hcon.1, hcon.2⟩), if_neg hc]

theorem writeRange_length (u : ℕ) (rng : VertexRange) (m : List (Option ℕ)) :
    (writeRange u rng m).length = m.length := foldlSet_length _ _

theorem vertexMapLoop_length :
    ∀ (rngs : List VertexRange) (start : ℕ) (m : List (Option ℕ)),
      (vertexMapLoop start rngs m).length = m.length := by
  intro rngs
  induction rngs with
  | nil => intro start m; rfl
  | cons rng rest ih =>
    intro start m
    rw [vertexMapLoop, ih, writeRange_length]

theorem vertexMapLoop_getD_untouched :
    ∀ (rngs : List VertexRange) (start : ℕ) (m : List (Option ℕ)) (v : ℕ),
      (∀ idx, ∀ hidx : idx < rngs.length, ¬ (rngs.get ⟨idx, hidx⟩).contains v) →
      (vertexMapLoop start rngs m).getD v none = m.getD v none := by
  intro rngs
  induction rngs with
  | nil => intro start m v _; rfl
  | cons rng rest ih =>
    intro start m v hno
    rw [vertexMapLoop, ih (start + 1) _ v
      (fun idx hidx => hno (idx + 1) (by simpa using Nat.succ_lt_succ hidx))]
    rw [writeRange_getD, if_neg (fun hcon => hno 0 (by simp) hcon.1)]

theorem vertexMapLoop_getD_write :
    ∀ (rngs : List VertexRange) (start : ℕ) (m : List (Option ℕ)) (v : ℕ) (idx : ℕ)
      (hidx : idx < rngs.length),
      (rngs.get ⟨idx, hidx⟩).contains v → v < m.length →
      (∀ idx2, ∀ h2 : idx2 < rngs.length, idx < idx2 → ¬ (rngs.get ⟨idx2, h2⟩).contains v) →
      (vertexMapLoop start rngs m).getD v none = some (start + idx) := by
  intro rngs
  induction rngs with
  | nil => intro start m v idx hidx; exact absurd hidx (by simp)
  | cons rng rest ih =>
    intro start m v idx hidx hcont hlen hlater
    cases idx with
    | zero =>
      rw [vertexMapLoop, vertexMapLoop_getD_untouched rest (start + 1) _ v
        (fun idx2 h2 => hlater (idx2 + 1) (by simpa using Nat.succ_lt_succ h2) (by omega))]
      rw [writeRange_getD, if_pos ⟨hcont, hlen⟩]
      rfl
    | succ idx =>
      rw [vertexMapLoop, ih (start + 1) _ v idx (by simpa using hidx) hcont
        (by rw [writeRange_length]; exact hlen)
        (fun idx2 h2 hgt => hlater (idx2 + 1) (by simpa using Nat.succ_lt_succ h2) (by omega))]
      rw [show start + 1 + idx = start + (idx + 1) from by omega]

theorem vertexMapLoop_getD_source :
    ∀ (rngs : List VertexRange) (start : ℕ) (m : List (Option ℕ)) (v u : ℕ),
      (vertexMapLoop start rngs m).getD v none = some u →
      m.getD v none = some u ∨ ∃ idx, ∃ hidx : idx < rngs.length,
        u = start + idx ∧ (rngs.get ⟨idx, hidx⟩).contains v := by
  intro rngs
  induction rngs with
  | nil => intro start m v u h; exact Or.inl h
  | cons rng rest ih =>
    intro start m v u h
    rw [vertexMapLoop] at h
    cases ih (start + 1) _ v u h with
    | inl hw =>
      rw [writeRange_getD] at hw
      by_cases hc : rng.contains v ∧ v < m.length
      · rw [if_pos hc] at hw
        injection hw with hw
        exact Or.inr ⟨0, by simp, by omega, hc.1⟩
      · rw [if_neg hc] at hw
        exact Or.inl hw
    | inr hex =>
      obtain ⟨idx, hidx, hu, hcont⟩ := hex
      exact Or.inr ⟨idx + 1, by simpa using Nat.succ_lt_succ hidx, by omega, hcont⟩

theorem exceptIsOk_iff {ε α : Type} (e : Except ε α) : e.isOk = true ↔ ∃ x, e = .ok x := by
  cases e <;> simp [Except.isOk, Except.toBool]

/-- C8: the planner fatally rejects an empty partition list, a partition
range extending beyond the vertex count, and two overlapping partition
ranges; on every accepted configuration, a vertex lying in some partition
range is mapped to exactly one owning unit, whose owning range contains
it. -/
theorem C8_planner_validation (config : DualModuleParallelConfig)
    (initializer : SolverInitializer) :
    (config.partitions = [] → (PartitionInfo.new config initializer).isOk = false) ∧
    ((∃ p ∈ config.partitions, initializer.vertex_num < p.hi) →
      (PartitionInfo.new config initializer).isOk = false) ∧
    (∀ a b, ∀ ha : a < config.partitions.length, ∀ hb : b < config.partitions.length, a ≠ b →
      (∃ v, (config.partitions.get ⟨a, ha⟩).contains v ∧
        (config.partitions.get ⟨b, hb⟩).contains v) →
      (PartitionInfo.new config initializer).isOk = false) ∧
    (∀ info, PartitionInfo.new config initializer = .ok info →
      ∀ v p, p ∈ config.partitions → p.contains v →
        ∃! u, info.vertex_to_owning_unit.getD v none = some u ∧
          ∃ hu : u < info.units.length, (info.units.get ⟨u, hu⟩).owning_range.contains v) := by
  refine ⟨?_, ?_, ?_, ?_⟩
  · intro hp
    rw [PartitionInfo.new, if_pos (by simp [hp])]
    rfl
  · rintro ⟨p, hpmem, hpv⟩
    cases hok : (PartitionInfo.new config initializer).isOk with
    | false => rfl
    | true =>
      obtain ⟨info, hinfo⟩ := (exceptIsOk_iff _).mp hok
      obtain ⟨W, O, P, hempty, hall, hfl, hpar_all, hroot, hunits, hmap⟩ :=
        PartitionInfo.new_ok_elim hinfo
      have hsane := (List.all_eq_true.mp hall) p hpmem
      simp only [Bool.and_eq_true, decide_eq_true_eq] at hsane
      exact absurd hsane.2 (by omega)
  · intro a b ha hb hne hover
    cases hok : (PartitionInfo.new config initializer).isOk with
    | false => rfl
    | true =>
      obtain ⟨info, hinfo⟩ := (exceptIsOk_iff _).mp hok
      obtain ⟨W, O, P, hempty, hall, hfl, hpar_all, hroot, hunits, hmap⟩ :=
        PartitionInfo.new_ok_elim hinfo
      obtain ⟨v, hva, hvb⟩ := hover
      have facts := fusePlanFacts_of_ok hfl hall hpar_all
      have hpre := fuseLoop_ok_prefix _ _ _ _ _ _ _ hfl
      have hOa : O.getD a ⟨0, 0⟩ = config.partitions.get ⟨a, ha⟩ := by
        rw [hpre.2 a ha, List.getD_eq_get _ _ ha]
      have hOb : O.getD b ⟨0, 0⟩ = config.partitions.get ⟨b, hb⟩ := by
        rw [hpre.2 b hb, List.getD_eq_get _ _ hb]
      have hra := facts.reach_root a (by omega)
      have hrb := facts.reach_root b (by omega)
      have := (facts.subtree_main (config.partitions.length + config.fusions.length - 1)).2
        a b hra hrb hne v
      rw [hOa, hOb] at this
      exact absurd ⟨hva, hvb⟩ this
  · intro info hinfo v p hpmem hpv
    obtain ⟨W, O, P, hempty, hall, hfl, hpar_all, hroot, hunits, hmap⟩ :=
      PartitionInfo.new_ok_elim hinfo
    have facts := fusePlanFacts_of_ok hfl hall hpar_all
    have hpre := fuseLoop_ok_prefix _ _ _ _ _ _ _ hfl
    obtain ⟨⟨a, ha⟩, hpa⟩ := List.mem_iff_get.mp hpmem
    have haO : a < O.length := by have := facts.olen; omega
    have hOa : O.getD a ⟨0, 0⟩ = p := by
      rw [hpre.2 a ha, List.getD_eq_get _ _ ha, hpa]
    have hsane := (List.all_eq_true.mp hall) p hpmem
    simp only [Bool.and_eq_true, decide_eq_true_eq] at hsane
    have hnotLater : ∀ idx2, ∀ h2 : idx2 < O.length, a < idx2 →
        ¬ (O.get ⟨idx2, h2⟩).contains v := by
      intro idx2 h2 hgt hcont
      rw [← List.getD_eq_get _ _ h2] at hcont
      have hra := facts.reach_root a (by omega)
      have hr2 := facts.reach_root idx2 (by have := facts.olen; omega)
      have hpair := (facts.subtree_main (config.partitions.length + config.fusions.length - 1)).2
        a idx2 hra hr2 (by omega) v
      rw [hOa] at hpair
      exact hpair ⟨hpv, hcont⟩
    have hwrite : (vertexMapLoop 0 O (List.replicate initializer.vertex_num none)).getD v none =
        some (0 + a) := by
      refine vertexMapLoop_getD_write O 0 _ v a haO ?_ ?_ hnotLater
      · rw [← List.getD_eq_get _ _ haO, hOa]; exact hpv
      · simp only [List.length_replicate]
        obtain ⟨h1, h2⟩ := hpv
        omega
    rw [zero_add] at hwrite
    rw [hmap]
    refine ⟨a, ⟨hwrite, ?_⟩, ?_⟩
    · have halen : a < info.units.length := by
        rw [hunits]; simp only [List.length_map, List.length_range]; omega
      refine ⟨halen, ?_⟩
      have : info.units.get ⟨a, halen⟩ = info.units.getD a defaultUnitInfo :=
        (List.getD_eq_get _ _ halen).symm
      rw [this, hunits, mapRange_getD _ _ _ _ (by omega)]
      exact hOa ▸ hpv
    · intro y hy
      exact Option.some_inj.mp (hy.1.symm.trans hwrite)

theorem reaches_congr {P1 P2 : List (Option ℕ)}
    (hpt : ∀ i, P1.getD i none = P2.getD i none) :
    ∀ {u m}, Reaches P1 u m → Reaches P2 u m := by
  intro u m h
  induction h with
  | refl => exact Reaches.refl _
  | @step i p k hp _ ih => exact Reaches.step (by rw [← hpt i]; exact hp) ih

theorem parentsOf_getD_mapRange (g : ℕ → PartitionUnitInfo) (total : ℕ) (info : PartitionInfo)
    (hunits : info.units = (List.range total).map g) (i : ℕ) :
    (parentsOf info).getD i none = if i < total then (g i).parent else none := by
  rw [parentsOf, hunits, List.map_map]
  by_cases hi : i < total
  · rw [if_pos hi, mapRange_getD _ _ _ _ hi]
    rfl
  · rw [if_neg hi, List.getD_eq_default]
    simp only [List.length_map, List.length_range]
    omega

theorem newConfigMain_ok_elim {initializer : SolverInitializer}
    {config : DualModuleParallelConfig} {st : DualModuleParallelState}
    (h : newConfigMain initializer config = .ok st) :
    st.initializer = initializer ∧ st.config = config ∧
    PartitionInfo.new config initializer = .ok st.partition_info ∧
    st.units.length = st.partition_info.units.length ∧
    (∀ u ∈ st.units, u.is_active = true ∧ u.is_fused = false ∧ u.parent = none) := by
  rw [newConfigMain] at h
  cases hpi : PartitionInfo.new config initializer with
  | error e => rw [hpi] at h; exact absurd h (by simp)
  | ok info =>
    rw [hpi] at h
    dsimp only at h
    by_cases hone : config.partitions.length = 1
    · rw [if_pos hone] at h
      by_cases hfus : config.fusions.isEmpty = true
      · rw [if_neg (not_not_intro hfus)] at h
        have hst := (Except.ok.inj h).symm
        subst hst
        refine ⟨rfl, rfl, rfl, ?_, ?_⟩
        · obtain ⟨W, O, P, h1, h2, h3, h4, h5, hunits, hmap⟩ := PartitionInfo.new_ok_elim hpi
          show 1 = info.units.length
          rw [hunits]
          simp only [List.length_map, List.length_range]
          have := List.isEmpty_iff_length_eq_zero.mp hfus
          omega
        · intro u hu
          simp only [List.mem_singleton] at hu
          subst hu
          exact ⟨rfl, rfl, rfl⟩
      · rw [if_pos (by simpa using hfus)] at h
        exact absurd h (by simp)
    · rw [if_neg hone] at h
      cases hae : assignEdges config initializer info
          (containedVerticesVec config initializer info) with
      | error e => rw [hae] at h; exact absurd h (by simp)
      | ok lists =>
        rw [hae] at h
        dsimp only at h
        have hst := (Except.ok.inj h).symm
        subst hst
        refine ⟨rfl, rfl, rfl, by simp, ?_⟩
        intro u hu
        simp only [List.mem_map] at hu
        obtain ⟨i, -, hwi⟩ := hu
        rw [← hwi]
        exact ⟨rfl, rfl, rfl⟩

/-- C10: right after construction (before any `clear`), every unit —
including every internal fusion unit — is active and unfused, because
`new_wrapper` unconditionally initialises the flags that way; so whenever
the configuration has at least one fusion, two distinct units on one
root-to-leaf path of the partition tree are active simultaneously and the
at-most-one-active-unit-per-path invariant fails until the first clear. -/
theorem C10_fresh_state_all_active (initializer : SolverInitializer)
    (config0 : DualModuleParallelConfig) (st : DualModuleParallelState)
    (h : newConfig initializer config0 = .ok st) :
    (∀ u ∈ st.units, u.is_active = true ∧ u.is_fused = false) ∧
    (config0.fusions ≠ [] →
      ∃ i j, i ≠ j ∧ Reaches (parentsOf st.partition_info) i j ∧
        (∃ ui, st.units.get? i = some ui ∧ ui.is_active = true) ∧
        (∃ uj, st.units.get? j = some uj ∧ uj.is_active = true)) := by
  obtain ⟨hini, hcfg, hpi, hlen, hflags⟩ := newConfigMain_ok_elim h
  refine ⟨fun u hu => ⟨(hflags u hu).1, (hflags u hu).2.1⟩, ?_⟩
  intro hfus
  obtain ⟨W, O, P, hempty, hall, hfl, hpar_all, hroot, hunits, hmap⟩ :=
    PartitionInfo.new_ok_elim hpi
  have facts := fusePlanFacts_of_ok hfl hall hpar_all
  have hfuseq : (defaultedConfig initializer config0).fusions = config0.fusions := by
    rw [defaultedConfig]
    split <;> rfl
  have hnpos : 0 < (defaultedConfig initializer config0).partitions.length :=
    List.length_pos.mpr (by simpa using hempty)
  have hfpos : 0 < (defaultedConfig initializer config0).fusions.length := by
    rw [hfuseq]
    exact List.length_pos.mpr hfus
  have htot : st.partition_info.units.length =
      (defaultedConfig initializer config0).partitions.length +
        (defaultedConfig initializer config0).fusions.length := by
    rw [hunits]
    simp
  have hplen := facts.plen
  have hpw : ∀ i, (parentsOf st.partition_info).getD i none = P.getD i none := by
    intro i
    rw [parentsOf_getD_mapRange _ _ _ hunits i]
    split
    · rfl
    · rw [List.getD_eq_default]
      omega
  have hactive : ∀ i, i < st.units.length → ∃ ui, st.units.get? i = some ui ∧
      ui.is_active = true := by
    intro i hi
    refine ⟨st.units.get ⟨i, hi⟩, List.get?_eq_get hi, ?_⟩
    exact (hflags _ (List.get_mem _ _ hi)).1
  have hulen : st.units.length =
      (defaultedConfig initializer config0).partitions.length +
        (defaultedConfig initializer config0).fusions.length := by rw [hlen, htot]
  refine ⟨0, (defaultedConfig initializer config0).partitions.length +
      (defaultedConfig initializer config0).fusions.length - 1, by omega, ?_, ?_, ?_⟩
  · refine reaches_congr (fun i => (hpw i).symm) ?_
    exact facts.reach_root 0 (by omega)
  · exact hactive 0 (by omega)
  · exact hactive _ (by omega)

/-- Concrete instantiation of the C8 theorem. -/
theorem C8_planner_witness :
    (PartitionInfo.new exCfgOverlap exInitEight).isOk = false ∧
    (PartitionInfo.new exCfgTwo exInitTwo = .ok exInfoTwo ∧
      ∃! u, exInfoTwo.vertex_to_owning_unit.getD 0 none = some u ∧
        ∃ hu : u < exInfoTwo.units.length,
          (exInfoTwo.units.get ⟨u, hu⟩).owning_range.contains 0) :=
  ⟨(C8_planner_validation exCfgOverlap exInitEight).2.2.1 0 1 (by decide) (by decide) (by decide)
      ⟨4, by decide, by decide⟩,
    by decide,
    (C8_planner_validation exCfgTwo exInitTwo).2.2.2 exInfoTwo (by decide) 0 ⟨0, 1⟩
      (by decide) (by decide)⟩

theorem assignEdgesLoop_ok_valid (config : DualModuleParallelConfig)
    (initializer : SolverInitializer) (info : PartitionInfo) (cv : List (Finset ℕ)) :
    ∀ (es : List (ℕ × ℕ × ℕ)) (acc : List (List (ℕ × ℕ × ℕ))),
      (assignEdgesLoop config initializer info cv es acc).isOk = true →
      ∀ e ∈ es, ¬ EdgeInvalid initializer info e := by
  intro es
  induction es with
  | nil => intro acc h e he; exact absurd he (by simp)
  | cons e0 rest ih =>
    intro acc h e he
    obtain ⟨i, j, w⟩ := e0
    rw [assignEdgesLoop] at h
    by_cases hij : i = j
    · rw [if_pos hij] at h
      exact absurd h (by simp [Except.isOk, Except.toBool])
    rw [if_neg hij] at h
    by_cases hib : i ≥ initializer.vertex_num
    · rw [if_pos hib] at h
      exact absurd h (by simp [Except.isOk, Except.toBool])
    rw [if_neg hib] at h
    by_cases hjb : j ≥ initializer.vertex_num
    · rw [if_pos hjb] at h
      exact absurd h (by simp [Except.isOk, Except.toBool])
    rw [if_neg hjb] at h
    cases hmi : info.vertex_to_owning_unit.getD i none with
    | none =>
      rw [hmi] at h
      exact absurd h (by simp [Except.isOk, Except.toBool])
    | some iu =>
      rw [hmi] at h
      cases hmj : info.vertex_to_owning_unit.getD j none with
      | none =>
        rw [hmj] at h
        exact absurd h (by simp [Except.isOk, Except.toBool])
      | some ju =>
        rw [hmj] at h
        dsimp only at h
        by_cases hcross : ¬ (ju ∈ (info.units.getD iu defaultUnitInfo).descendants ∨
            iu ∈ (info.units.getD ju defaultUnitInfo).descendants ∨ iu = ju)
        · rw [if_pos hcross] at h
          exact absurd h (by simp [Except.isOk, Except.toBool])
        · rw [if_neg hcross] at h
          rcases List.mem_cons.mp he with he0 | herest
          · subst he0
            intro hbad
            rcases hbad with hb | hb | hb | hb
            · exact hij hb
            · exact hib hb
            · exact hjb hb
            · exact (hb iu ju hmi hmj) (not_not.mp hcross)
          · by_cases heif : config.edges_in_fusion_unit = true
            · rw [if_pos heif] at h
              exact ih _ h e herest
            · rw [if_neg heif] at h
              by_cases hanc : (ancestorDescendantOf info iu ju).1 < config.partitions.length
              · rw [if_pos hanc] at h
                exact ih _ h e herest
              · rw [if_neg hanc] at h
                cases hdfs : dfsAdd config.partitions.length info.units cv i j w
                    info.units.length (ancestorDescendantOf info iu ju).2 acc with
                | error e2 =>
                  rw [hdfs] at h
                  exact absurd h (by simp [Except.isOk, Except.toBool])
                | ok acc1 =>
                  rw [hdfs] at h
                  dsimp only at h
                  exact ih _ h e herest

/-- C7 (amended): in the multi-partition branch, construction fatally
rejects every initializer containing a self-loop edge, an edge endpoint at
or beyond the vertex count, or an edge whose endpoint-owning units are
unrelated in the partition tree, before any unit is built; the
single-partition branch performs no such edge validation — the default
configuration accepts every initializer. -/
theorem C7_edge_validation_multi_only (initializer : SolverInitializer)
    (config0 : DualModuleParallelConfig) :
    ((defaultedConfig initializer config0).partitions.length ≠ 1 →
      ∀ info, PartitionInfo.new (defaultedConfig initializer config0) initializer = .ok info →
        (∃ e ∈ initializer.weighted_edges, EdgeInvalid initializer info e) →
        (newConfig initializer config0).isOk = false) ∧
    (config0.partitions = [] → config0.fusions = [] →
      (newConfig initializer config0).isOk = true) := by
  constructor
  · intro hone info hpi hbad
    rw [newConfig, newConfigMain, hpi]
    dsimp only
    rw [if_neg hone]
    cases hae : assignEdges (defaultedConfig initializer config0) initializer info
        (containedVerticesVec (defaultedConfig initializer config0) initializer info) with
    | error e => rfl
    | ok lists =>
      obtain ⟨e, hemem, hinval⟩ := hbad
      have := assignEdgesLoop_ok_valid (defaultedConfig initializer config0) initializer info
        (containedVerticesVec (defaultedConfig initializer config0) initializer info)
        initializer.weighted_edges (List.replicate info.units.length [])
        (by rw [← assignEdges, hae]; rfl) e hemem
      exact absurd hinval this
  · intro hp hf
    have hdc : defaultedConfig initializer config0 =
        { config0 with partitions := [⟨0, initializer.vertex_num⟩] } := by
      rw [defaultedConfig, if_pos (by simp [hp])]
    rw [newConfig, hdc, newConfigMain]
    rw [PartitionInfo.new]
    rw [if_neg (by simp)]
    rw [if_neg (not_not_intro (by simp))]
    dsimp only
    rw [hf]
    rw [show fuseLoop [] [⟨0, initializer.vertex_num⟩] [⟨0, initializer.vertex_num⟩]
        (List.replicate (([⟨0, initializer.vertex_num⟩] : List VertexRange).length + ([] : List (ℕ × ℕ)).length) none) =
        .ok ([⟨0, initializer.vertex_num⟩], [⟨0, initializer.vertex_num⟩],
          List.replicate (([⟨0, initializer.vertex_num⟩] : List VertexRange).length + ([] : List (ℕ × ℕ)).length) none) from rfl]
    dsimp only
    simp [Except.isOk, Except.toBool]

/-- C7 counterexample: with the single-partition default configuration,
construction accepts an initializer containing a self-loop edge instead of
rejecting it. -/
theorem C7_single_partition_accepts_self_loop :
    (newConfig exInitSelfLoop
      { partitions := [], fusions := [], edges_in_fusion_unit := true }).isOk = true := by
  decide

/-- Concrete instantiation of the C7 theorem. -/
theorem C7_edge_validation_witness :
    ((defaultedConfig exInitSelfLoop exCfgTwo).partitions.length ≠ 1 ∧
      PartitionInfo.new (defaultedConfig exInitSelfLoop exCfgTwo) exInitSelfLoop = .ok exInfoTwo ∧
      (0, 0, 1) ∈ exInitSelfLoop.weighted_edges ∧
      EdgeInvalid exInitSelfLoop exInfoTwo (0, 0, 1)) ∧
    (newConfig exInitSelfLoop exCfgTwo).isOk = false :=
  ⟨⟨by decide, by decide, by decide, Or.inl rfl⟩,
    (C7_edge_validation_multi_only exInitSelfLoop exCfgTwo).1 (by decide) exInfoTwo (by decide)
      ⟨(0, 0, 1), by decide, Or.inl rfl⟩⟩

/-- Concrete instantiation of the C10 theorem. -/
theorem C10_fresh_witness :
    newConfig exInitTwo exCfgTwo = .ok exStateTwo ∧
    (∀ u ∈ exStateTwo.units, u.is_active = true ∧ u.is_fused = false) ∧
    (∃ i j, i ≠ j ∧ Reaches (parentsOf exStateTwo.partition_info) i j ∧
      (∃ ui, exStateTwo.units.get? i = some ui ∧ ui.is_active = true) ∧
      (∃ uj, exStateTwo.units.get? j = some uj ∧ uj.is_active = true)) :=
  ⟨by decide,
    (C10_fresh_state_all_active exInitTwo exCfgTwo exStateTwo (by decide)).1,
    (C10_fresh_state_all_active exInitTwo exCfgTwo exStateTwo (by decide)).2 (by decide)⟩

theorem assignEdgesLoop_cons_ok_elim {config : DualModuleParallelConfig}
    {initializer : SolverInitializer} {info : PartitionInfo} {cv : List (Finset ℕ)}
    {i j w : ℕ} {rest : List (ℕ × ℕ × ℕ)} {acc res : List (List (ℕ × ℕ × ℕ))}
    (h : assignEdgesLoop config initializer info cv ((i, j, w) :: rest) acc = .ok res) :
    i ≠ j ∧ i < initializer.vertex_num ∧ j < initializer.vertex_num ∧
    ∃ iu ju, info.vertex_to_owning_unit.getD i none = some iu ∧
      info.vertex_to_owning_unit.getD j none = some ju ∧
      (ju ∈ (info.units.getD iu defaultUnitInfo).descendants ∨
       iu ∈ (info.units.getD ju defaultUnitInfo).descendants ∨ iu = ju) ∧
      ((config.edges_in_fusion_unit = true ∧
        assignEdgesLoop config initializer info cv rest
          (acc.set (ancestorDescendantOf info iu ju).2
            (acc.getD (ancestorDescendantOf info iu ju).2 [] ++ [(i, j, w)])) = .ok res) ∨
       (config.edges_in_fusion_unit = false ∧
        (((ancestorDescendantOf info iu ju).1 < config.partitions.length ∧
          assignEdgesLoop config initializer info cv rest
            (acc.set (ancestorDescendantOf info iu ju).2
              (acc.getD (ancestorDescendantOf info iu ju).2 [] ++ [(i, j, w)])) = .ok res) ∨
         (¬ (ancestorDescendantOf info iu ju).1 < config.partitions.length ∧
          ∃ acc1, dfsAdd config.partitions.length info.units cv i j w info.units.length
              (ancestorDescendantOf info iu ju).2 acc = .ok acc1 ∧
            assignEdgesLoop config initializer info cv rest acc1 = .ok res)))) := by
  rw [assignEdgesLoop] at h
  by_cases hij : i = j
  · rw [if_pos hij] at h; exact absurd h (by simp)
  rw [if_neg hij] at h
  by_cases hib : i ≥ initializer.vertex_num
  · rw [if_pos hib] at h; exact absurd h (by simp)
  rw [if_neg hib] at h
  by_cases hjb : j ≥ initializer.vertex_num
  · rw [if_pos hjb] at h; exact absurd h (by simp)
  rw [if_neg hjb] at h
  cases hmi : info.vertex_to_owning_unit.getD i none with
  | none => rw [hmi] at h; exact absurd h (by simp)
  | some iu =>
    rw [hmi] at h
    cases hmj : info.vertex_to_owning_unit.getD j none with
    | none => rw [hmj] at h; exact absurd h (by simp)
    | some ju =>
      rw [hmj] at h
      dsimp only at h
      by_cases hcross : ¬ (ju ∈ (info.units.getD iu defaultUnitInfo).descendants ∨
          iu ∈ (info.units.getD ju defaultUnitInfo).descendants ∨ iu = ju)
      · rw [if_pos hcross] at h; exact absurd h (by simp)
      · rw [if_neg hcross] at h
        refine ⟨hij, by omega, by omega, iu, ju, rfl, rfl, not_not.mp hcross, ?_⟩
        by_cases heif : config.edges_in_fusion_unit = true
        · rw [if_pos heif] at h
          exact Or.inl ⟨heif, h⟩
        · rw [if_neg heif] at h
          refine Or.inr ⟨by simpa using heif, ?_⟩
          by_cases hanc : (ancestorDescendantOf info iu ju).1 < config.partitions.length
          · rw [if_pos hanc] at h
            exact Or.inl ⟨hanc, h⟩
          · rw [if_neg hanc] at h
            cases hdfs : dfsAdd config.partitions.length info.units cv i j w
                info.units.length (ancestorDescendantOf info iu ju).2 acc with
            | error e2 => rw [hdfs] at h; exact absurd h (by simp)
            | ok acc1 =>
              rw [hdfs] at h
              dsimp only at h
              exact Or.inr ⟨hanc, acc1, rfl, h⟩

theorem ancestorDescendant_snd_cases (info : PartitionInfo) (iu ju : ℕ) :
    (ancestorDescendantOf info iu ju).2 = ju ∨ (ancestorDescendantOf info iu ju).2 = iu := by
  rw [ancestorDescendantOf]
  split
  · exact Or.inl rfl
  · exact Or.inr rfl

theorem edgeDescUnit_eq {info : PartitionInfo} {i j w iu ju : ℕ}
    (hmi : info.vertex_to_owning_unit.getD i none = some iu)
    (hmj : info.vertex_to_owning_unit.getD j none = some ju) :
    edgeDescUnit info (i, j, w) = some (ancestorDescendantOf info iu ju).2 := by
  rw [edgeDescUnit]
  dsimp only
  rw [hmi, hmj]

theorem assignEdgesLoop_true_spec (config : DualModuleParallelConfig)
    (initializer : SolverInitializer) (info : PartitionInfo) (cv : List (Finset ℕ))
    (heif : config.edges_in_fusion_unit = true)
    (hmapLt : ∀ v u, info.vertex_to_owning_unit.getD v none = some u → u < info.units.length) :
    ∀ (es : List (ℕ × ℕ × ℕ)) (acc res : List (List (ℕ × ℕ × ℕ))),
      assignEdgesLoop config initializer info cv es acc = .ok res →
      acc.length = info.units.length →
      res.length = info.units.length ∧
      ∀ u, res.getD u [] = acc.getD u [] ++
        (es.filter fun e => decide (edgeDescUnit info e = some u)) := by
  intro es
  induction es with
  | nil =>
    intro acc res h hlen
    simp only [assignEdgesLoop, Except.ok.injEq] at h
    subst h
    exact ⟨hlen, fun u => by simp⟩
  | cons e0 rest ih =>
    intro acc res h hlen
    obtain ⟨i, j, w⟩ := e0
    obtain ⟨hij, hib, hjb, iu, ju, hmi, hmj, hrel, hbr⟩ := assignEdgesLoop_cons_ok_elim h
    rcases hbr with ⟨-, hrec⟩ | ⟨hfalse, -⟩
    · have hd : (ancestorDescendantOf info iu ju).2 < info.units.length := by
        rcases ancestorDescendant_snd_cases info iu ju with hc | hc
        · rw [hc]; exact hmapLt j ju hmj
        · rw [hc]; exact hmapLt i iu hmi
      obtain ⟨hlen2, hspec⟩ := ih _ res hrec (by rw [List.length_set]; exact hlen)
      refine ⟨hlen2, fun u => ?_⟩
      rw [hspec u, listGetD_set]
      rw [List.filter_cons]
      by_cases hu : u = (ancestorDescendantOf info iu ju).2
      · subst hu
        rw [if_pos ⟨rfl, by omega⟩]
        rw [if_pos (by rw [edgeDescUnit_eq hmi hmj]; simp)]
        simp
      · rw [if_neg (by intro hcon; exact hu hcon.1.symm)]
        rw [if_neg (by rw [edgeDescUnit_eq hmi hmj]; simpa using fun hcon => hu hcon.symm)]
    · rw [heif] at hfalse
      exact absurd hfalse (by simp)

theorem assignEdgesLoop_ok_mapped (config : DualModuleParallelConfig)
    (initializer : SolverInitializer) (info : PartitionInfo) (cv : List (Finset ℕ)) :
    ∀ (es : List (ℕ × ℕ × ℕ)) (acc res : List (List (ℕ × ℕ × ℕ))),
      assignEdgesLoop config initializer info cv es acc = .ok res →
      ∀ e ∈ es, ∃ iu ju, info.vertex_to_owning_unit.getD e.1 none = some iu ∧
        info.vertex_to_owning_unit.getD e.2.1 none = some ju := by
  intro es
  induction es with
  | nil => intro acc res h e he; exact absurd he (by simp)
  | cons e0 rest ih =>
    intro acc res h e he
    obtain ⟨i, j, w⟩ := e0
    obtain ⟨-, -, -, iu, ju, hmi, hmj, -, hbr⟩ := assignEdgesLoop_cons_ok_elim h
    rcases List.mem_cons.mp he with he0 | herest
    · subst he0; exact ⟨iu, ju, hmi, hmj⟩
    · rcases hbr with ⟨-, hrec⟩ | ⟨-, ⟨-, hrec⟩ | ⟨-, acc1, -, hrec⟩⟩
      · exact ih _ res hrec e herest
      · exact ih _ res hrec e herest
      · exact ih _ res hrec e herest

theorem filter_partition_multiset (desc : (ℕ × ℕ × ℕ) → Option ℕ) (N : ℕ) :
    ∀ (l : List (ℕ × ℕ × ℕ)), (∀ e ∈ l, ∃ d, desc e = some d ∧ d < N) →
      (∑ u in Finset.range N,
        ((l.filter fun e => decide (desc e = some u)) : Multiset (ℕ × ℕ × ℕ))) =
        (l : Multiset (ℕ × ℕ × ℕ)) := by
  intro l
  induction l with
  | nil => simp
  | cons e l ih =>
    intro h
    obtain ⟨d, hd, hdN⟩ := h e (by simp)
    have hrest : ∀ e2 ∈ l, ∃ d2, desc e2 = some d2 ∧ d2 < N :=
      fun e2 he2 => h e2 (by simp [he2])
    have hsplit : ∀ u ∈ Finset.range N,
        (((e :: l).filter fun e2 => decide (desc e2 = some u)) : Multiset (ℕ × ℕ × ℕ)) =
          (if u = d then {e} else 0) +
            ((l.filter fun e2 => decide (desc e2 = some u)) : Multiset (ℕ × ℕ × ℕ)) := by
      intro u _
      rw [List.filter_cons]
      by_cases hu : u = d
      · subst hu
        rw [if_pos (by rw [hd]; simp), if_pos rfl]
        simp
      · rw [if_neg (by rw [hd]; simpa using fun hcon => hu hcon.symm), if_neg hu]
        simp
    rw [Finset.sum_congr rfl hsplit, Finset.sum_add_distrib, ih hrest,
      Finset.sum_ite_eq' (Finset.range N) d fun _ => ({e} : Multiset (ℕ × ℕ × ℕ))]
    rw [if_pos (Finset.mem_range.mpr hdN)]
    simp

/-- C2: with `edges_in_fusion_unit = true`, the edge-assignment loop of
`new_config` appends every edge of the global initializer to exactly one
per-unit list, namely that of the descendant unit, in input order; so each
per-unit list is the filter of the global edge list by descendant unit and
the multiset union of all per-unit lists is the original global edge
multiset. -/
theorem C2_edges_in_fusion_unit_partition (config : DualModuleParallelConfig)
    (initializer : SolverInitializer) (info : PartitionInfo)
    (heif : config.edges_in_fusion_unit = true)
    (hinfo : PartitionInfo.new config initializer = .ok info)
    (res : List (List (ℕ × ℕ × ℕ)))
    (hres : assignEdges config initializer info
      (containedVerticesVec config initializer info) = .ok res) :
    res.length = info.units.length ∧
    (∀ u, res.getD u [] =
      initializer.weighted_edges.filter fun e => decide (edgeDescUnit info e = some u)) ∧
    (∑ u in Finset.range info.units.length,
      ((res.getD u [] : List (ℕ × ℕ × ℕ)) : Multiset (ℕ × ℕ × ℕ))) =
      (initializer.weighted_edges : Multiset (ℕ × ℕ × ℕ)) := by
  obtain ⟨W, O, P, hempty, hall, hfl, hpar_all, hroot, hunits, hmap⟩ :=
    PartitionInfo.new_ok_elim hinfo
  have facts := fusePlanFacts_of_ok hfl hall hpar_all
  have hulen : info.units.length =
      config.partitions.length + config.fusions.length := by
    rw [hunits]; simp
  have hmapLt : ∀ v u, info.vertex_to_owning_unit.getD v none = some u →
      u < info.units.length := by
    intro v u hm
    rw [hmap] at hm
    cases vertexMapLoop_getD_source O 0 _ v u hm with
    | inl hrep => rw [listGetD_replicate] at hrep; exact Option.noConfusion hrep
    | inr hex =>
      obtain ⟨idx, hidx, hu, -⟩ := hex
      have := facts.olen
      omega
  rw [assignEdges] at hres
  obtain ⟨hlen, hspec⟩ := assignEdgesLoop_true_spec config initializer info _ heif hmapLt
    initializer.weighted_edges _ res hres (by simp)
  have hfilter : ∀ u, res.getD u [] =
      initializer.weighted_edges.filter fun e => decide (edgeDescUnit info e = some u) := by
    intro u
    rw [hspec u, listGetD_replicate]
    rfl
  refine ⟨hlen, hfilter, ?_⟩
  have hdesc : ∀ e ∈ initializer.weighted_edges, ∃ d, edgeDescUnit info e = some d ∧
      d < info.units.length := by
    intro e he
    obtain ⟨iu, ju, hmi, hmj⟩ := assignEdgesLoop_ok_mapped config initializer info _
      initializer.weighted_edges _ res hres e he
    refine ⟨(ancestorDescendantOf info iu ju).2, ?_, ?_⟩
    · obtain ⟨i, j, w⟩ := e
      exact edgeDescUnit_eq hmi hmj
    · rcases ancestorDescendant_snd_cases info iu ju with hc | hc
      · rw [hc]; exact hmapLt _ ju hmj
      · rw [hc]; exact hmapLt _ iu hmi
  rw [show (fun u => ((res.getD u [] : List (ℕ × ℕ × ℕ)) : Multiset (ℕ × ℕ × ℕ))) =
      fun u => ((initializer.weighted_edges.filter
        fun e => decide (edgeDescUnit info e = some u)) : Multiset (ℕ × ℕ × ℕ)) from
    funext fun u => by rw [hfilter u]]
  exact filter_partition_multiset (edgeDescUnit info) info.units.length
    initializer.weighted_edges hdesc

/-- Concrete instantiation of the C2 theorem. -/
theorem C2_partition_witness :
    (exCfgFiveT.edges_in_fusion_unit = true ∧
      PartitionInfo.new exCfgFiveT exInitFive = .ok exInfoFive ∧
      assignEdges exCfgFiveT exInitFive exInfoFive
        (containedVerticesVec exCfgFiveT exInitFive exInfoFive) = .ok exResFive) ∧
    (∑ u in Finset.range exInfoFive.units.length,
      ((exResFive.getD u [] : List (ℕ × ℕ × ℕ)) : Multiset (ℕ × ℕ × ℕ))) =
      (exInitFive.weighted_edges : Multiset (ℕ × ℕ × ℕ)) :=
  ⟨⟨rfl, by decide, by decide⟩,
    (C2_edges_in_fusion_unit_partition exCfgFiveT exInitFive exInfoFive rfl (by decide)
      exResFive (by decide)).2.2⟩

theorem unitsParents_getD (units : List PartitionUnitInfo) (cur : ℕ) :
    (units.map fun u => u.parent).getD cur none = (units.getD cur defaultUnitInfo).parent := by
  by_cases hc : cur < units.length
  · rw [List.getD_eq_getElem _ _ (by simpa using hc), List.getD_eq_getElem _ _ hc]
    simp
  · rw [List.getD_eq_default _ _ (by simpa using not_lt.mp hc),
      List.getD_eq_default _ _ (not_lt.mp hc)]
    rfl

theorem parentChain_mem_reaches {P : List (Option ℕ)} :
    ∀ (fuel u m : ℕ), m ∈ parentChain P fuel u → Reaches P u m := by
  intro fuel
  induction fuel with
  | zero => intro u m hm; exact absurd hm (by simp [parentChain])
  | succ fuel ih =>
    intro u m hm
    rw [parentChain] at hm
    cases hp : P.getD u none with
    | none => rw [hp] at hm; exact absurd hm (by simp)
    | some p =>
      rw [hp] at hm
      rcases List.mem_cons.mp hm with he | hm2
      · exact he ▸ Reaches.step hp (Reaches.refl _)
      · exact Reaches.step hp (ih p m hm2)

theorem reaches_mem_parentChain {P : List (Option ℕ)} (hinc : IncreasingParents P) :
    ∀ {u m}, Reaches P u m → u ≠ m → ∀ fuel, P.length - u ≤ fuel →
      m ∈ parentChain P fuel u := by
  intro u m h
  induction h with
  | refl => intro hne; exact absurd rfl hne
  | @step i p k hp hr ih =>
    intro hne fuel hfuel
    have hip : i < p := hinc i p hp
    have hilen : i < P.length := by
      by_contra hc
      rw [List.getD_eq_default _ _ (not_lt.mp hc)] at hp
      exact Option.noConfusion hp
    cases fuel with
    | zero => omega
    | succ fuel =>
      rw [parentChain, hp]
      by_cases hpk : p = k
      · exact hpk ▸ List.mem_cons_self _ _
      · exact List.mem_cons_of_mem _ (ih hpk fuel (by omega))

theorem neighbors_mem (edges : List (ℕ × ℕ × ℕ)) (v q : ℕ) :
    q ∈ neighbors edges v ↔ ∃ w2, (v, q, w2) ∈ edges ∨ (q, v, w2) ∈ edges := by
  induction edges with
  | nil => simp [neighbors]
  | cons e es ih =>
    obtain ⟨a, b, w2⟩ := e
    rw [neighbors, List.foldr_cons]
    show q ∈ (if a = v then b :: neighbors es v else if b = v then a :: neighbors es v
      else neighbors es v) ↔ _
    have hx : ∀ {r : ℕ}, r ∈ neighbors es v →
        r ∈ (if a = v then b :: neighbors es v else if b = v then a :: neighbors es v
          else neighbors es v) := by
      intro r hr
      split
      · exact List.mem_cons_of_mem _ hr
      · split
        · exact List.mem_cons_of_mem _ hr
        · exact hr
    constructor
    · intro hq
      by_cases hav : a = v
      · rw [if_pos hav] at hq
        rcases List.mem_cons.mp hq with rfl | hq2
        · exact ⟨w2, Or.inl (by rw [← hav]; exact List.mem_cons_self _ _)⟩
        · obtain ⟨w3, h | h⟩ := ih.mp hq2
          · exact ⟨w3, Or.inl (List.mem_cons_of_mem _ h)⟩
          · exact ⟨w3, Or.inr (List.mem_cons_of_mem _ h)⟩
      · rw [if_neg hav] at hq
        by_cases hbv : b = v
        · rw [if_pos hbv] at hq
          rcases List.mem_cons.mp hq with rfl | hq2
          · exact ⟨w2, Or.inr (by rw [← hbv]; exact List.mem_cons_self _ _)⟩
          · obtain ⟨w3, h | h⟩ := ih.mp hq2
            · exact ⟨w3, Or.inl (List.mem_cons_of_mem _ h)⟩
            · exact ⟨w3, Or.inr (List.mem_cons_of_mem _ h)⟩
        · rw [if_neg hbv] at hq
          obtain ⟨w3, h | h⟩ := ih.mp hq
          · exact ⟨w3, Or.inl (List.mem_cons_of_mem _ h)⟩
          · exact ⟨w3, Or.inr (List.mem_cons_of_mem _ h)⟩
    · rintro ⟨w3, h | h⟩
      · rcases List.mem_cons.mp h with he | hm
        · injection he with h1 h2
          injection h2 with h2 h3
          rw [if_pos h1.symm, h2]
          exact List.mem_cons_self _ _
        · exact hx (ih.mpr ⟨w3, Or.inl hm⟩)
      · rcases List.mem_cons.mp h with he | hm
        · injection he with h1 h2
          injection h2 with h2 h3
          by_cases hav : a = v
          · rw [if_pos hav, show q = b from h1.trans (hav.trans h2)]
            exact List.mem_cons_self _ _
          · rw [if_neg hav, if_pos h2.symm, h1]
            exact List.mem_cons_self _ _
        · exact hx (ih.mpr ⟨w3, Or.inr hm⟩)

theorem mirrorsOf_mem (units : List PartitionUnitInfo) (nbrs : ℕ → List ℕ)
    (isVirt : ℕ → Bool) (own : VertexRange) (p v : ℕ) (b : Bool) :
    (v, b) ∈ mirrorsOf units nbrs isVirt own p ↔
      (units.getD p defaultUnitInfo).owning_range.contains v ∧
      (∃ q ∈ nbrs v, own.contains q) ∧ b = isVirt v := by
  rw [mirrorsOf, mirrorVertices]
  simp only [List.mem_map, List.mem_filter, Prod.mk.injEq, List.any_eq_true,
    decide_eq_true_eq, memRange_iff_contains]
  constructor
  · rintro ⟨v2, ⟨hmem, q, hq, hoq⟩, rfl, rfl⟩
    exact ⟨hmem, ⟨q, hq, hoq⟩, rfl⟩
  · rintro ⟨hmem, ⟨q, hq, hoq⟩, rfl⟩
    exact ⟨v, ⟨hmem, q, hq, hoq⟩, rfl, rfl⟩

theorem interfaceLoop_true_spec (units : List PartitionUnitInfo) (nbrs : ℕ → List ℕ)
    (isVirt : ℕ → Bool) (own : VertexRange) :
    ∀ (fuel cur : ℕ) (contained : Finset ℕ),
      (interfaceLoop true units nbrs isVirt own fuel cur contained).1 =
        ((parentChain (units.map fun u => u.parent) fuel cur).map fun p =>
          (p, mirrorsOf units nbrs isVirt own p)).filter fun pr => !pr.2.isEmpty := by
  intro fuel
  induction fuel with
  | zero => intro cur contained; rfl
  | succ fuel ih =>
    intro cur contained
    rw [interfaceLoop, parentChain, unitsParents_getD units cur]
    cases hp : (units.getD cur defaultUnitInfo).parent with
    | none => rfl
    | some p =>
      dsimp only
      rw [if_pos rfl]
      dsimp only
      rw [ih p (contained ∪ (mirrorVertices units nbrs own p).toFinset)]
      rw [List.map_cons, List.filter_cons]
      by_cases hemp : (mirrorsOf units nbrs isVirt own p).isEmpty = true
      · rw [if_pos hemp, if_neg (by simp [hemp])]
      · rw [if_neg hemp, if_pos (by simp [Bool.not_eq_true] at hemp ⊢; exact hemp)]

theorem parentChain_mem_gt {P : List (Option ℕ)} (hinc : IncreasingParents P) :
    ∀ (fuel u m : ℕ), m ∈ parentChain P fuel u → u < m := by
  intro fuel
  induction fuel with
  | zero => intro u m hm; exact absurd hm (by simp [parentChain])
  | succ fuel ih =>
    intro u m hm
    rw [parentChain] at hm
    cases hp : P.getD u none with
    | none => rw [hp] at hm; exact absurd hm (by simp)
    | some p =>
      rw [hp] at hm
      rcases List.mem_cons.mp hm with rfl | hm2
      · exact hinc u m hp
      · exact lt_trans (hinc u p hp) (ih p m hm2)

theorem parentChain_mem_iff {P : List (Option ℕ)} (hinc : IncreasingParents P)
    {fuel u m : ℕ} (hfuel : P.length - u ≤ fuel) :
    m ∈ parentChain P fuel u ↔ Reaches P u m ∧ u ≠ m := by
  constructor
  · intro hm
    exact ⟨parentChain_mem_reaches fuel u m hm,
      Nat.ne_of_lt (parentChain_mem_gt hinc fuel u m hm)⟩
  · rintro ⟨hr, hne⟩
    exact reaches_mem_parentChain hinc hr hne fuel hfuel

/-- **C4.** With `edges_in_fusion_unit = true`, the interface list a unit
`U` gets from construction records exactly the proper ancestors `A` of `U`
whose mirror list is non-empty, each paired with that mirror list; and a
vertex `v` carrying flag `b` is in the mirror list for `A` iff `v` lies in
the owning range of `A`, has an edge to some vertex of the owning range of
`U`, and `b` is the global virtual flag of `v`. -/
theorem C4_interface_mirrors {config : DualModuleParallelConfig}
    {initializer : SolverInitializer} {info : PartitionInfo}
    (hpi : PartitionInfo.new config initializer = .ok info)
    (heifu : config.edges_in_fusion_unit = true) (U : ℕ) :
    (∀ A mv,
      (A, mv) ∈ (buildUnitInitializer config initializer info U).1.interfaces ↔
        Reaches (parentsOf info) U A ∧ U ≠ A ∧
        mv = mirrorsOf info.units (neighbors initializer.weighted_edges)
          (isVertexVirtual initializer)
          (info.units.getD U defaultUnitInfo).owning_range A ∧ mv ≠ []) ∧
    (∀ A v b,
      (v, b) ∈ mirrorsOf info.units (neighbors initializer.weighted_edges)
          (isVertexVirtual initializer)
          (info.units.getD U defaultUnitInfo).owning_range A ↔
        (info.units.getD A defaultUnitInfo).owning_range.contains v ∧
        (∃ q, (info.units.getD U defaultUnitInfo).owning_range.contains q ∧
          ∃ w, (v, q, w) ∈ initializer.weighted_edges ∨
            (q, v, w) ∈ initializer.weighted_edges) ∧
        b = isVertexVirtual initializer v) := by
  obtain ⟨W, O, P, hempty, hall, hfl, hpar_all, hroot, hunits, hmap⟩ :=
    PartitionInfo.new_ok_elim hpi
  have facts := fusePlanFacts_of_ok hfl hall hpar_all
  have hplen := facts.plen
  have hpw : ∀ i, (parentsOf info).getD i none = P.getD i none := by
    intro i
    rw [parentsOf_getD_mapRange _ _ _ hunits i]
    split
    · rfl
    · rw [List.getD_eq_default]
      omega
  have hinc : IncreasingParents (parentsOf info) := by
    intro i p hp
    rw [hpw i] at hp
    exact facts.increasing i p hp
  constructor
  · intro A mv
    have hint : (buildUnitInitializer config initializer info U).1.interfaces =
        (interfaceLoop config.edges_in_fusion_unit info.units
          (neighbors initializer.weighted_edges) (isVertexVirtual initializer)
          (info.units.getD U defaultUnitInfo).owning_range
          info.units.length U
          (info.units.getD U defaultUnitInfo).owning_range.toList.toFinset).1 := rfl
    rw [hint, heifu, interfaceLoop_true_spec,
      show (info.units.map fun u => u.parent) = parentsOf info from rfl]
    rw [List.mem_filter]
    simp only [List.mem_map, Bool.not_eq_true', List.isEmpty_eq_false]
    constructor
    · rintro ⟨⟨p, hp, hpair⟩, hne⟩
      obtain ⟨h1, h2⟩ := Prod.mk.injEq .. ▸ hpair
      subst h1
      rw [parentChain_mem_iff hinc (by simp [parentsOf])] at hp
      exact ⟨hp.1, hp.2, h2.symm, hne⟩
    · rintro ⟨hr, hne, hmv, hnil⟩
      refine ⟨⟨A, ?_, by rw [hmv]⟩, by rw [hmv] at hnil ⊢; exact hnil⟩
      rw [parentChain_mem_iff hinc (by simp [parentsOf])]
      exact ⟨hr, hne⟩
  · intro A v b
    rw [mirrorsOf_mem]
    constructor
    · rintro ⟨h1, ⟨q, hq, hoq⟩, h3⟩
      exact ⟨h1, ⟨q, hoq, (neighbors_mem _ _ _).mp hq⟩, h3⟩
    · rintro ⟨h1, ⟨q, hoq, hw⟩, h3⟩
      exact ⟨h1, ⟨q, (neighbors_mem _ _ _).mpr hw, hoq⟩, h3⟩

/-- Concrete instantiation of the C4 theorem: in the five-vertex,
three-partition example the leaf unit 0 records the root unit 4 with
mirror vertex 3 (which has an edge to vertex 0 of unit 0's owning range). -/
theorem C4_mirrors_witness :
    Reaches (parentsOf exInfoFive) 0 4 ∧ (0 : ℕ) ≠ 4 ∧
    [((3 : ℕ), false)] = mirrorsOf exInfoFive.units (neighbors exInitFive.weighted_edges)
      (isVertexVirtual exInitFive) (exInfoFive.units.getD 0 defaultUnitInfo).owning_range 4 ∧
    [((3 : ℕ), false)] ≠ ([] : List (ℕ × Bool)) :=
  ((@C4_interface_mirrors exCfgFiveT exInitFive exInfoFive
    (by decide) (by decide) 0).1 4 [(3, false)]).mp (by decide)

/-- **C3** (amended). Hardware-faithful placement
(`edges_in_fusion_unit = false`): an edge whose ancestor-side owning unit
is a leaf is appended to the descendant unit's list by the assignment loop;
otherwise the descent `dfs_add` from the descendant unit, whenever it
succeeds, has visited a set of leaves on which both endpoints are contained
together or not at all, and has appended the edge to exactly the visited
leaves containing both endpoints (once per visit).  The original claim's
further assertion — that the exactly-one-endpoint check never fires for a
configuration passing validation — is refuted separately. -/
theorem C3_hardware_faithful_descent (np : ℕ) (units : List PartitionUnitInfo)
    (cv : List (Finset ℕ)) (i j w : ℕ) :
    (∀ (fuel u : ℕ) (acc res : List (List (ℕ × ℕ × ℕ))),
      np ≤ acc.length →
      dfsAdd np units cv i j w fuel u acc = .ok res →
      res.length = acc.length ∧
      ∃ L, descentLeaves np units fuel u = some L ∧
        (∀ k ∈ L, k < np ∧ (i ∈ cv.getD k ∅ ↔ j ∈ cv.getD k ∅)) ∧
        ∀ k, res.getD k [] = acc.getD k [] ++
          List.replicate
            (if i ∈ cv.getD k ∅ ∧ j ∈ cv.getD k ∅ then L.count k else 0) (i, j, w)) ∧
    (∀ (config : DualModuleParallelConfig) (initializer : SolverInitializer)
      (info : PartitionInfo) (rest : List (ℕ × ℕ × ℕ))
      (acc : List (List (ℕ × ℕ × ℕ))) (iu ju : ℕ),
      config.edges_in_fusion_unit = false →
      i ≠ j → ¬ i ≥ initializer.vertex_num → ¬ j ≥ initializer.vertex_num →
      info.vertex_to_owning_unit.getD i none = some iu →
      info.vertex_to_owning_unit.getD j none = some ju →
      (ju ∈ (info.units.getD iu defaultUnitInfo).descendants ∨
        iu ∈ (info.units.getD ju defaultUnitInfo).descendants ∨ iu = ju) →
      (ancestorDescendantOf info iu ju).1 < config.partitions.length →
      assignEdgesLoop config initializer info cv ((i, j, w) :: rest) acc =
        assignEdgesLoop config initializer info cv rest
          (acc.set (ancestorDescendantOf info iu ju).2
            (acc.getD (ancestorDescendantOf info iu ju).2 [] ++ [(i, j, w)]))) := by
  constructor
  · intro fuel
    induction fuel with
    | zero => intro u acc res hlen h; exact absurd h (by simp [dfsAdd])
    | succ fuel ih =>
      intro u acc res hlen h
      rw [dfsAdd] at h
      by_cases hge : u ≥ np
      · rw [if_pos hge] at h
        cases hch : (units.getD u defaultUnitInfo).children with
        | none => rw [hch] at h; exact absurd h (by simp)
        | some lr =>
          rw [hch] at h
          dsimp only at h
          cases h1 : dfsAdd np units cv i j w fuel lr.1 acc with
          | error e => rw [h1] at h; exact absurd h (by simp)
          | ok acc1 =>
            rw [h1] at h
            dsimp only at h
            obtain ⟨hlen1, L1, hd1, hiff1, hpt1⟩ := ih lr.1 acc acc1 hlen h1
            obtain ⟨hlen2, L2, hd2, hiff2, hpt2⟩ := ih lr.2 acc1 res (by omega) h
            refine ⟨by omega, L1 ++ L2, ?_, ?_, ?_⟩
            · rw [descentLeaves, if_pos hge, hch]
              dsimp only
              rw [hd1, hd2]
            · intro k hk
              rcases List.mem_append.mp hk with hm | hm
              · exact hiff1 k hm
              · exact hiff2 k hm
            · intro k
              have hcnt : (if i ∈ cv.getD k ∅ ∧ j ∈ cv.getD k ∅ then L1.count k else 0) +
                  (if i ∈ cv.getD k ∅ ∧ j ∈ cv.getD k ∅ then L2.count k else 0) =
                  (if i ∈ cv.getD k ∅ ∧ j ∈ cv.getD k ∅ then (L1 ++ L2).count k else 0) := by
                by_cases hc : i ∈ cv.getD k ∅ ∧ j ∈ cv.getD k ∅
                · rw [if_pos hc, if_pos hc, if_pos hc, List.count_append]
                · rw [if_neg hc, if_neg hc, if_neg hc]
              rw [hpt2 k, hpt1 k, List.append_assoc, ← List.replicate_add, hcnt]
      · rw [if_neg hge] at h
        by_cases hci : i ∈ cv.getD u ∅ <;> by_cases hcj : j ∈ cv.getD u ∅
        · rw [if_neg (not_not_intro
              (by rw [decide_eq_true hci, decide_eq_true hcj])), if_pos hci] at h
          have hres := (Except.ok.inj h).symm
          subst hres
          refine ⟨by simp, [u], by rw [descentLeaves, if_neg hge], ?_, ?_⟩
          · intro k hk
            rw [List.mem_singleton] at hk
            subst hk
            exact ⟨by omega, iff_of_true hci hcj⟩
          · intro k
            rw [listGetD_set]
            by_cases hku : u = k
            · subst hku
              rw [if_pos ⟨rfl, by omega⟩, if_pos ⟨hci, hcj⟩,
                show List.count u [u] = 1 by simp, List.replicate_one]
            · rw [if_neg (fun hc => hku hc.1),
                List.count_eq_zero.mpr (by simp; exact fun hc => hku hc.symm)]
              simp
        · rw [if_pos (by rw [decide_eq_true hci, decide_eq_false hcj]; simp)] at h
          exact absurd h (by simp)
        · rw [if_pos (by rw [decide_eq_false hci, decide_eq_true hcj]; simp)] at h
          exact absurd h (by simp)
        · rw [if_neg (not_not_intro
              (by rw [decide_eq_false hci, decide_eq_false hcj])), if_neg hci] at h
          have hres := (Except.ok.inj h).symm
          subst hres
          refine ⟨rfl, [u], by rw [descentLeaves, if_neg hge], ?_, ?_⟩
          · intro k hk
            rw [List.mem_singleton] at hk
            subst hk
            exact ⟨by omega, iff_of_false hci hcj⟩
          · intro k
            by_cases hku : u = k
            · subst hku
              rw [if_neg (fun hc => hci hc.1)]
              simp
            · rw [List.count_eq_zero.mpr (by simp; exact fun hc => hku hc.symm)]
              simp
  · intro config initializer info rest acc iu ju heifu hij hi hj hmi hmj hrel hlt
    rw [assignEdgesLoop, if_neg hij, if_neg hi, if_neg hj, hmi, hmj]
    dsimp only
    rw [if_neg (not_not_intro hrel), heifu]
    rw [if_neg (by simp), if_pos hlt]

/-- The never-fires part of the original C3 claim is refuted: the
five-vertex three-partition configuration passes every planner validation
(`PartitionInfo::new` succeeds) yet hardware-faithful construction aborts
with the exactly-one-endpoint assertion of `dfs_add`, because the descent
for edge `(1, 3)` reaches leaf 0 whose contained set holds vertex 3 but
not vertex 1. -/
theorem C3_assert_fires_on_validated_config :
    (PartitionInfo.new exCfgFiveF exInitFive).isOk = true ∧
    newConfig exInitFive exCfgFiveF =
      .error "must either be both contained or not contained" :=
  ⟨by decide, by decide⟩

/-- Concrete instantiation of the C3 theorem: the descent for edge
`(0, 3)` from leaf 0 with its contained set `{0, 3}` succeeds and appends
the edge exactly to unit 0. -/
theorem C3_descent_witness :
    (3 : ℕ) ≤ ([[], [], [], [], []] : List (List (ℕ × ℕ × ℕ))).length ∧
    ([[(0, 3, 1)], [], [], [], []] : List (List (ℕ × ℕ × ℕ))).length =
      ([[], [], [], [], []] : List (List (ℕ × ℕ × ℕ))).length :=
  ⟨by decide,
    ((C3_hardware_faithful_descent 3 exInfoFive.units [{0, 3}, {2}, {4}, ∅, ∅] 0 3 1).1
      5 0 [[], [], [], [], []] [[(0, 3, 1)], [], [], [], []] (by decide) (by decide)).1⟩

end FusionBlossom
